import Mathlib

/-!
Shallow embedding of the per-track audio effect-chain subsystem of the
jamwithremy step sequencer (src/lib/effectsEngine.ts together with the
routing bridge of src/lib/audioEngine.ts).

Audio nodes (Tone.js / Web Audio objects) are modelled as numeric handles
allocated from a counter; the live connection graph is an explicit list of
directed edges; the engine state carries the chain map, the node-parameter
heap, the edge list, and the set of disposed handles.  All numeric effect
parameters are rationals.
-/

namespace JamWithRemy

/-- The shared destination node (Tone.getDestination / audioContext.destination). -/
def destination : Nat := 0

/-- A directed connection in the live audio graph, as made by node.connect. -/
abbrev Edge := Nat × Nat

/-- Oversample setting of the distortion effect. -/
inductive Oversample where
  | osNone
  | os2x
  | os4x
deriving DecidableEq, Repr

/-- Filter curve type. -/
inductive FilterType where
  | lowpass
  | highpass
  | bandpass
deriving DecidableEq, Repr

/-- Filter rolloff, in dB per octave. -/
inductive Rolloff where
  | db12
  | db24
  | db48
  | db96
deriving DecidableEq, Repr

/-- ReverbParams from effectsEngine.ts. -/
structure ReverbParams where
  roomSize : ℚ
  decay : ℚ
  wet : ℚ
deriving DecidableEq, Repr

/-- DelayParams from effectsEngine.ts. -/
structure DelayParams where
  time : ℚ
  feedback : ℚ
  wet : ℚ
deriving DecidableEq, Repr

/-- DistortionParams from effectsEngine.ts. -/
structure DistortionParams where
  distortion : ℚ
  oversample : Oversample
  wet : ℚ
deriving DecidableEq, Repr

/-- FilterParams from effectsEngine.ts. -/
structure FilterParams where
  frequency : ℚ
  filterType : FilterType
  rolloff : Rolloff
  q : ℚ
  wet : ℚ
deriving DecidableEq, Repr

/-- EffectParams: the union of the four parameter shapes. -/
inductive EffectParams where
  | reverb (p : ReverbParams)
  | delay (p : DelayParams)
  | distortion (p : DistortionParams)
  | filter (p : FilterParams)
deriving DecidableEq, Repr

/-- TrackEffect from effectsEngine.ts.  The kind field is a string, as in the
TypeScript runtime, so that the defensive default branch of createToneEffect
is reachable exactly as in the source. -/
structure TrackEffect where
  id : String
  kind : String
  params : EffectParams
  enabled : Bool
deriving DecidableEq, Repr

/-- Native parameter state of a live Tone.Freeverb node. -/
structure FreeverbState where
  roomSize : ℚ
  dampening : ℚ
  wet : ℚ
deriving DecidableEq, Repr

/-- Native parameter state of a live Tone.FeedbackDelay node. -/
structure FeedbackDelayState where
  delayTime : ℚ
  feedback : ℚ
  wet : ℚ
deriving DecidableEq, Repr

/-- Native parameter state of a live Tone.Distortion node. -/
structure DistortionState where
  distortion : ℚ
  oversample : Oversample
  wet : ℚ
deriving DecidableEq, Repr

/-- Native parameter state of a live Tone.Filter node (it has no wet control). -/
structure FilterState where
  frequency : ℚ
  filterType : FilterType
  rolloff : Rolloff
  q : ℚ
deriving DecidableEq, Repr

/-- The state of a live audio node, by node species. -/
inductive ToneNodeState where
  | gain (value : ℚ)
  | freeverb (s : FreeverbState)
  | feedbackDelay (s : FeedbackDelayState)
  | distortion (s : DistortionState)
  | filter (s : FilterState)
deriving DecidableEq, Repr

/-- The effect kind a live node species answers to, for alignment statements. -/
def kindOf : ToneNodeState → String
  | .gain _ => "gain"
  | .freeverb _ => "reverb"
  | .feedbackDelay _ => "delay"
  | .distortion _ => "distortion"
  | .filter _ => "filter"

/-- EffectChain from effectsEngine.ts: the per-track aggregate. -/
structure EffectChain where
  trackIndex : Int
  effects : List TrackEffect
  toneEffects : List Nat
  input : Nat
  output : Nat
deriving DecidableEq, Repr

/-- The whole observable state of the effects engine plus the audio graph. -/
structure EngineState where
  chains : List (Int × EffectChain)
  nodes : List (Nat × ToneNodeState)
  conns : List Edge
  fresh : Nat
  disposed : List Nat
deriving DecidableEq, Repr

/-- The engine before any chain has been touched; handle 0 is the destination. -/
def initialState : EngineState :=
  { chains := [], nodes := [], conns := [], fresh := 1, disposed := [] }

/-- Map.get on the chain map. -/
def lookupKey : List (Int × EffectChain) → Int → Option EffectChain
  | [], _ => none
  | (k, v) :: rest, t => if k = t then some v else lookupKey rest t

/-- Map.set on the chain map: replace the binding if present, else append. -/
def setKey : List (Int × EffectChain) → Int → EffectChain → List (Int × EffectChain)
  | [], t, c => [(t, c)]
  | (k, v) :: rest, t, c => if k = t then (t, c) :: rest else (k, v) :: setKey rest t c

/-- Reading a live node's parameter state by handle. -/
def lookupNode : List (Nat × ToneNodeState) → Nat → Option ToneNodeState
  | [], _ => none
  | (k, v) :: rest, n => if k = n then some v else lookupNode rest n

/-- Mutating a live node's parameter state in place. -/
def setNode (l : List (Nat × ToneNodeState)) (n : Nat)
    (f : ToneNodeState → ToneNodeState) : List (Nat × ToneNodeState) :=
  l.map (fun p => if p.1 = n then (p.1, f p.2) else p)

/-- The unchecked cast "effect.params as ReverbParams"; a mismatched shape never
arises through the typed call sites of the source. -/
def asReverb : EffectParams → ReverbParams
  | .reverb p => p
  | _ => ⟨0, 0, 0⟩

/-- The unchecked cast "effect.params as DelayParams". -/
def asDelay : EffectParams → DelayParams
  | .delay p => p
  | _ => ⟨0, 0, 0⟩

/-- The unchecked cast "effect.params as DistortionParams". -/
def asDistortion : EffectParams → DistortionParams
  | .distortion p => p
  | _ => ⟨0, .osNone, 0⟩

/-- The unchecked cast "effect.params as FilterParams". -/
def asFilter : EffectParams → FilterParams
  | .filter p => p
  | _ => ⟨0, .lowpass, .db12, 0, 0⟩

/-- EffectsEngine.createToneEffect: build a node for the effect's kind, with
all initial parameters applied; reverb rescales decay to dampening by a factor
of 3000; unknown kinds hit the default branch and yield no node. -/
def createToneEffect (e : TrackEffect) : Option ToneNodeState :=
  match e.kind with
  | "reverb" =>
      let p := asReverb e.params
      some (.freeverb ⟨p.roomSize, p.decay * 3000, p.wet⟩)
  | "delay" =>
      let p := asDelay e.params
      some (.feedbackDelay ⟨p.time, p.feedback, p.wet⟩)
  | "distortion" =>
      let p := asDistortion e.params
      some (.distortion ⟨p.distortion, p.oversample, p.wet⟩)
  | "filter" =>
      let p := asFilter e.params
      some (.filter ⟨p.frequency, p.filterType, p.rolloff, p.q⟩)
  | _ => none

/-- EffectsEngine.updateToneEffectParams: push the full current parameter set
onto a live node, dispatching on the effect kind; the switch covers every
field of the node, so it amounts to a full overwrite of the node state.  A
node whose species does not match the kind tag is outside the typed model and
is left unchanged. -/
def updateToneEffectParams (n : ToneNodeState) (kind : String) (params : EffectParams) :
    ToneNodeState :=
  match kind with
  | "reverb" =>
      match n with
      | .freeverb _ =>
          let p := asReverb params
          .freeverb ⟨p.roomSize, p.decay * 3000, p.wet⟩
      | _ => n
  | "delay" =>
      match n with
      | .feedbackDelay _ =>
          let p := asDelay params
          .feedbackDelay ⟨p.time, p.feedback, p.wet⟩
      | _ => n
  | "distortion" =>
      match n with
      | .distortion _ =>
          let p := asDistortion params
          .distortion ⟨p.distortion, p.oversample, p.wet⟩
      | _ => n
  | "filter" =>
      match n with
      | .filter _ =>
          let p := asFilter params
          .filter ⟨p.frequency, p.filterType, p.rolloff, p.q⟩
      | _ => n
  | _ => n

/-- A Partial of ReverbParams: absent fields are none. -/
structure ReverbPatch where
  roomSize : Option ℚ
  decay : Option ℚ
  wet : Option ℚ
deriving DecidableEq, Repr

/-- A Partial of DelayParams. -/
structure DelayPatch where
  time : Option ℚ
  feedback : Option ℚ
  wet : Option ℚ
deriving DecidableEq, Repr

/-- A Partial of DistortionParams. -/
structure DistortionPatch where
  distortion : Option ℚ
  oversample : Option Oversample
  wet : Option ℚ
deriving DecidableEq, Repr

/-- A Partial of FilterParams. -/
structure FilterPatch where
  frequency : Option ℚ
  filterType : Option FilterType
  rolloff : Option Rolloff
  q : Option ℚ
  wet : Option ℚ
deriving DecidableEq, Repr

/-- A Partial of EffectParams, shaped like the kind it patches. -/
inductive EffectPatch where
  | reverb (p : ReverbPatch)
  | delay (p : DelayPatch)
  | distortion (p : DistortionPatch)
  | filter (p : FilterPatch)
deriving DecidableEq, Repr

/-- The object spread "params = old spread with patch": fields present in the
patch overwrite, absent fields keep their prior value.  A patch of a different
shape than the params would build a hybrid object in JavaScript; that case is
outside the typed model and leaves the params unchanged. -/
def mergeParams (params : EffectParams) (patch : EffectPatch) : EffectParams :=
  match params, patch with
  | .reverb p, .reverb q =>
      .reverb ⟨q.roomSize.getD p.roomSize, q.decay.getD p.decay, q.wet.getD p.wet⟩
  | .delay p, .delay q =>
      .delay ⟨q.time.getD p.time, q.feedback.getD p.feedback, q.wet.getD p.wet⟩
  | .distortion p, .distortion q =>
      .distortion ⟨q.distortion.getD p.distortion, q.oversample.getD p.oversample,
        q.wet.getD p.wet⟩
  | .filter p, .filter q =>
      .filter ⟨q.frequency.getD p.frequency, q.filterType.getD p.filterType,
        q.rolloff.getD p.rolloff, q.q.getD p.q, q.wet.getD p.wet⟩
  | p, _ => p

/-- EffectsEngine.createEffectChain: fresh input and output gains, input wired
to output (bypass), output wired to the destination once and for all, empty
sequences, chain stored in the map. -/
def createEffectChain (s : EngineState) (t : Int) : EffectChain × EngineState :=
  let input := s.fresh
  let output := s.fresh + 1
  let c : EffectChain := ⟨t, [], [], input, output⟩
  (c, { s with
          nodes := s.nodes ++ [(input, .gain 1), (output, .gain 1)]
          conns := s.conns ++ [(input, output), (output, destination)]
          fresh := s.fresh + 2
          chains := setKey s.chains t c })

/-- EffectsEngine.getEffectChain: fetch the chain for a track, lazily creating
it on first reference. -/
def getEffectChain (s : EngineState) (t : Int) : EffectChain × EngineState :=
  match lookupKey s.chains t with
  | some c => (c, s)
  | none => createEffectChain s t

/-- The targets of all connections leaving a node, in graph order. -/
def outgoing (conns : List Edge) (n : Nat) : List Nat :=
  (conns.filter (fun e => decide (e.1 = n))).map Prod.snd

/-- node.disconnect() on each of the given nodes: drop every edge leaving one. -/
def removeOutgoing (conns : List Edge) (ns : List Nat) : List Edge :=
  conns.filter (fun e => decide (e.1 ∉ ns))

/-- The live nodes of the chain whose TrackEffect is enabled, in sequence
order (chain.toneEffects filtered by chain.effects at the same index). -/
def enabledTone (c : EffectChain) : List Nat :=
  ((c.toneEffects.zip c.effects).filter (fun p => p.2.enabled)).map Prod.fst

/-- The connect calls of the rebuild loop: consecutive pairs of a list. -/
def consecEdges : List Nat → List Edge
  | a :: b :: rest => (a, b) :: consecEdges (b :: rest)
  | _ => []

/-- EffectsEngine.rebuildEffectChain: disconnect the chain input and every
processing node, then rewire input through the enabled nodes in order to the
output, or input straight to output when no node is enabled.  The chain's
output keeps all its connections. -/
def rebuildEffectChain (conns : List Edge) (c : EffectChain) : List Edge :=
  let cleared := removeOutgoing conns (c.input :: c.toneEffects)
  match enabledTone c with
  | [] => cleared ++ [(c.input, c.output)]
  | e0 :: rest =>
      cleared ++ [(c.input, e0)] ++ consecEdges (e0 :: rest)
        ++ [((e0 :: rest).getLastD e0, c.output)]

/-- EffectsEngine.addEffect: lazily get the chain, build the node (aborting if
construction fails), append the entry and the node handle to the two
sequences, rebuild the wiring. -/
def addEffect (s : EngineState) (t : Int) (e : TrackEffect) : EngineState :=
  let (chain, s1) := getEffectChain s t
  match createToneEffect e with
  | none => s1
  | some ns =>
      let nid := s1.fresh
      let s2 := { s1 with nodes := s1.nodes ++ [(nid, ns)], fresh := s1.fresh + 1 }
      let c := { chain with
                   effects := chain.effects ++ [e]
                   toneEffects := chain.toneEffects ++ [nid] }
      let s3 := { s2 with chains := setKey s2.chains t c }
      { s3 with conns := rebuildEffectChain s3.conns c }

/-- EffectsEngine.removeEffect: locate the entry by id (no-op when absent),
dispose its node (a Tone dispose severs all its connections), remove the entry
from both sequences at that index, rebuild. -/
def removeEffect (s : EngineState) (t : Int) (effectId : String) : EngineState :=
  let (chain, s1) := getEffectChain s t
  match chain.effects.findIdx? (fun e => e.id == effectId) with
  | none => s1
  | some i =>
      let s2 :=
        match chain.toneEffects.get? i with
        | some nid =>
            { s1 with
                conns := s1.conns.filter (fun e => decide (e.1 ≠ nid ∧ e.2 ≠ nid))
                disposed := s1.disposed ++ [nid] }
        | none => s1
      let c := { chain with
                   effects := chain.effects.eraseIdx i
                   toneEffects := chain.toneEffects.eraseIdx i }
      let s3 := { s2 with chains := setKey s2.chains t c }
      { s3 with conns := rebuildEffectChain s3.conns c }

/-- EffectsEngine.updateEffect: locate the entry by id (no-op when absent),
merge the partial params over the entry's params, push the full merged set
onto the live node; no rebuild. -/
def updateEffect (s : EngineState) (t : Int) (effectId : String) (patch : EffectPatch) :
    EngineState :=
  let (chain, s1) := getEffectChain s t
  match chain.effects.findIdx? (fun e => e.id == effectId) with
  | none => s1
  | some i =>
      match chain.effects.get? i, chain.toneEffects.get? i with
      | some e, some nid =>
          let merged := mergeParams e.params patch
          let c := { chain with effects := chain.effects.set i { e with params := merged } }
          let s2 := { s1 with chains := setKey s1.chains t c }
          { s2 with nodes := setNode s2.nodes nid
                      (fun n => updateToneEffectParams n e.kind merged) }
      | _, _ => s1

/-- EffectsEngine.toggleEffect: locate the entry by id (no-op when absent),
flip its enabled flag in place, rebuild. -/
def toggleEffect (s : EngineState) (t : Int) (effectId : String) : EngineState :=
  let (chain, s1) := getEffectChain s t
  match chain.effects.findIdx? (fun e => e.id == effectId) with
  | none => s1
  | some i =>
      match chain.effects.get? i with
      | none => s1
      | some e =>
          let c := { chain with
                       effects := chain.effects.set i { e with enabled := !e.enabled } }
          let s2 := { s1 with chains := setKey s1.chains t c }
          { s2 with conns := rebuildEffectChain s2.conns c }

/-- EffectsEngine.getChainInput: the chain's input boundary node, creating the
chain lazily like every other accessor. -/
def getChainInput (s : EngineState) (t : Int) : Nat × EngineState :=
  let (chain, s1) := getEffectChain s t
  (chain.input, s1)

/-- One public mutating operation of the effects engine. -/
inductive Op where
  | add (t : Int) (e : TrackEffect)
  | remove (t : Int) (effectId : String)
  | update (t : Int) (effectId : String) (patch : EffectPatch)
  | toggle (t : Int) (effectId : String)
deriving DecidableEq, Repr

/-- Run one operation. -/
def applyOp (s : EngineState) : Op → EngineState
  | .add t e => addEffect s t e
  | .remove t i => removeEffect s t i
  | .update t i p => updateEffect s t i p
  | .toggle t i => toggleEffect s t i

/-- Run a sequence of operations left to right. -/
def applyOps (s : EngineState) : List Op → EngineState
  | [] => s
  | o :: rest => applyOps (applyOp s o) rest

/-- The transient nodes and resulting state of one playback trigger. -/
structure PlayResult where
  state : EngineState
  source : Nat
  gainNode : Nat
deriving DecidableEq, Repr

/-- Modelled from the spec: the routing bridge of AudioEngine.playSound
(spec section 4.4 and Scenario F).  The effect-routing revision of
src/lib/audioEngine.ts is absent from the provided sources (only its callers
appear); the copy under src/ predates effect routing.  Per the spec: build a
transient source and gain, source to gain; when no track index is supplied or
the effect backend failed to initialize, connect the gain straight to the
destination; otherwise consult the engine (lazily creating the track's
chain); with zero enabled entries connect the gain to the destination, else
to getChainInput(trackIndex). -/
def playSound (s : EngineState) (backendReady : Bool) (trackIndex : Option Int) :
    PlayResult :=
  let src := s.fresh
  let g := s.fresh + 1
  let s0 := { s with fresh := s.fresh + 2, conns := s.conns ++ [(src, g)] }
  match trackIndex, backendReady with
  | some t, true =>
      let (chain, s1) := getEffectChain s0 t
      if chain.effects.filter (fun e => e.enabled) = [] then
        ⟨{ s1 with conns := s1.conns ++ [(g, destination)] }, src, g⟩
      else
        ⟨{ s1 with conns := s1.conns ++ [(g, chain.input)] }, src, g⟩
  | _, _ =>
      ⟨{ s0 with conns := s0.conns ++ [(g, destination)] }, src, g⟩

/-! ## Specification-side predicates -/

/-- Every node a chain owns: the two boundary nodes and the processing nodes. -/
def chainNodes (c : EffectChain) : List Nat :=
  c.input :: c.output :: c.toneEffects

/-- The edges a correctly wired chain segment should consist of: src to the
first node, consecutive nodes linked, the last node to out. -/
def chainLinkEdges : Nat → List Nat → Nat → List Edge
  | src, [], out => [(src, out)]
  | src, x :: xs, out => (src, x) :: chainLinkEdges x xs out

/-- The signal path from src runs exactly through xs in order and ends at out:
each hop is the sole outgoing connection of its source. -/
def pathOk (conns : List Edge) : Nat → List Nat → Nat → Prop
  | src, [], out => outgoing conns src = [out]
  | src, x :: xs, out => outgoing conns src = [x] ∧ pathOk conns x xs out

instance instDecidablePathOk (conns : List Edge) :
    (src : Nat) → (xs : List Nat) → (out : Nat) → Decidable (pathOk conns src xs out)
  | src, [], out => inferInstanceAs (Decidable (outgoing conns src = [out]))
  | src, x :: xs, out =>
      haveI := instDecidablePathOk conns x xs out
      inferInstanceAs (Decidable (outgoing conns src = [x] ∧ pathOk conns x xs out))

/-- The live graph downstream of the chain's input is exactly: input, then the
enabled nodes in sequence order, then the output; disabled nodes hang loose. -/
def chainWired (conns : List Edge) (c : EffectChain) : Prop :=
  pathOk conns c.input (enabledTone c) c.output ∧
  ∀ n ∈ c.toneEffects, n ∉ enabledTone c → outgoing conns n = []

instance (conns : List Edge) (c : EffectChain) : Decidable (chainWired conns c) := by
  unfold chainWired
  infer_instance

/-! ## Graph lemmas -/

theorem outgoing_append (a b : List Edge) (n : Nat) :
    outgoing (a ++ b) n = outgoing a n ++ outgoing b n := by
  simp [outgoing, List.filter_append]

theorem outgoing_singleton (x y n : Nat) :
    outgoing [(x, y)] n = if x = n then [y] else [] := by
  by_cases h : x = n <;> simp [outgoing, h]

theorem outgoing_eq_nil (l : List Edge) (n : Nat) (h : ∀ e ∈ l, e.1 ≠ n) :
    outgoing l n = [] := by
  unfold outgoing
  rw [List.filter_eq_nil_iff.mpr, List.map_nil]
  intro e he
  simpa using h e he

theorem outgoing_removeOutgoing_mem (conns : List Edge) (ns : List Nat) (n : Nat)
    (h : n ∈ ns) : outgoing (removeOutgoing conns ns) n = [] := by
  apply outgoing_eq_nil
  intro e he hen
  unfold removeOutgoing at he
  have h1 : e.1 ∉ ns := by
    have h2 := (List.mem_filter.mp he).2
    simpa using h2
  exact h1 (hen ▸ h)

theorem outgoing_removeOutgoing_not_mem (conns : List Edge) (ns : List Nat) (n : Nat)
    (h : n ∉ ns) : outgoing (removeOutgoing conns ns) n = outgoing conns n := by
  unfold outgoing removeOutgoing
  rw [List.filter_filter]
  congr 1
  apply List.filter_congr
  intro e _
  by_cases he : e.1 = n
  · subst he
    simp [h]
  · simp [he]

theorem chainLinkEdges_mem (src : Nat) (xs : List Nat) (out : Nat) :
    ∀ e ∈ chainLinkEdges src xs out, e.1 ∈ src :: xs ∧ e.2 ∈ xs ++ [out] := by
  induction xs generalizing src with
  | nil => simp [chainLinkEdges]
  | cons x xs ih =>
      intro e he
      simp only [chainLinkEdges, List.mem_cons] at he
      rcases he with rfl | he
      · simp
      · obtain ⟨h1, h2⟩ := ih x e he
        constructor
        · rcases List.mem_cons.mp h1 with rfl | h1
          · simp
          · simp [h1]
        · rcases List.mem_append.mp h2 with h2 | h2
          · simp [h2]
          · simp [List.mem_append.mpr (Or.inr h2)]

theorem outgoing_chainLinkEdges_not_mem (src : Nat) (xs : List Nat) (out n : Nat)
    (h : n ∉ src :: xs) : outgoing (chainLinkEdges src xs out) n = [] := by
  apply outgoing_eq_nil
  intro e he hen
  exact h (hen ▸ (chainLinkEdges_mem src xs out e he).1)

theorem pathOk_append_linkEdges (out : Nat) :
    ∀ (xs : List Nat) (src : Nat) (cleared : List Edge),
      (∀ m ∈ src :: xs, outgoing cleared m = []) → (src :: xs).Nodup →
      pathOk (cleared ++ chainLinkEdges src xs out) src xs out := by
  intro xs
  induction xs with
  | nil =>
      intro src cleared hcl _
      show outgoing (cleared ++ [(src, out)]) src = [out]
      rw [outgoing_append, hcl src (by simp), outgoing_singleton]
      simp
  | cons x xs ih =>
      intro src cleared hcl hnd
      have hsrc : src ∉ x :: xs := (List.nodup_cons.mp hnd).1
      constructor
      · show outgoing (cleared ++ (src, x) :: chainLinkEdges x xs out) src = [x]
        have : (src, x) :: chainLinkEdges x xs out = [(src, x)] ++ chainLinkEdges x xs out :=
          rfl
        rw [this, ← List.append_assoc, outgoing_append, outgoing_append]
        rw [hcl src (by simp), outgoing_singleton, outgoing_chainLinkEdges_not_mem _ _ _ _ hsrc]
        simp
      · show pathOk (cleared ++ (src, x) :: chainLinkEdges x xs out) x xs out
        have heq : cleared ++ (src, x) :: chainLinkEdges x xs out
            = (cleared ++ [(src, x)]) ++ chainLinkEdges x xs out := by
          simp
        rw [heq]
        apply ih
        · intro m hm
          rw [outgoing_append, hcl m (List.mem_cons_of_mem src hm), outgoing_singleton]
          have : src ≠ m := fun h => hsrc (h ▸ hm)
          simp [this]
        · exact (List.nodup_cons.mp hnd).2

theorem getLastD_cons_cons (a b : Nat) (l : List Nat) (d d' : Nat) :
    (a :: b :: l).getLastD d = (b :: l).getLastD d' := by
  induction l generalizing a b with
  | nil => rfl
  | cons x l ih => exact ih b x

theorem chainLinkEdges_eq_consec (out : Nat) :
    ∀ (rest : List Nat) (e0 : Nat),
      chainLinkEdges e0 rest out
        = consecEdges (e0 :: rest) ++ [((e0 :: rest).getLastD e0, out)] := by
  intro rest
  induction rest with
  | nil => intro e0; simp [chainLinkEdges, consecEdges]
  | cons e1 rest ih =>
      intro e0
      show (e0, e1) :: chainLinkEdges e1 rest out = _
      rw [ih e1, getLastD_cons_cons e0 e1 rest e0 e1]
      simp [consecEdges]

theorem rebuild_eq_linkEdges (conns : List Edge) (c : EffectChain) :
    rebuildEffectChain conns c
      = removeOutgoing conns (c.input :: c.toneEffects)
          ++ chainLinkEdges c.input (enabledTone c) c.output := by
  unfold rebuildEffectChain
  cases h : enabledTone c with
  | nil => rfl
  | cons e0 rest =>
      show removeOutgoing conns (c.input :: c.toneEffects) ++ [(c.input, e0)]
            ++ consecEdges (e0 :: rest) ++ [((e0 :: rest).getLastD e0, c.output)] = _
      rw [show chainLinkEdges c.input (e0 :: rest) c.output
            = (c.input, e0) :: chainLinkEdges e0 rest c.output from rfl,
          chainLinkEdges_eq_consec]
      simp

theorem enabledTone_sublist_aux (l1 : List Nat) :
    ∀ (l2 : List TrackEffect),
      (((l1.zip l2).filter fun p => p.2.enabled).map Prod.fst).Sublist l1 := by
  induction l1 with
  | nil => intro l2; simp
  | cons a l1 ih =>
      intro l2
      cases l2 with
      | nil => simp
      | cons b l2 =>
          by_cases hb : b.enabled
          · simpa [List.zip_cons_cons, hb] using List.Sublist.cons₂ a (ih l2)
          · simpa [List.zip_cons_cons, hb] using List.Sublist.cons a (ih l2)

theorem enabledTone_sublist (c : EffectChain) : (enabledTone c).Sublist c.toneEffects :=
  enabledTone_sublist_aux c.toneEffects c.effects

theorem enabledTone_subset (c : EffectChain) : ∀ n ∈ enabledTone c, n ∈ c.toneEffects :=
  fun _ h => (enabledTone_sublist c).subset h

/-- Structural facts extracted from nodup-ness of a chain's node list. -/
theorem chainNodes_facts (c : EffectChain) (h : (chainNodes c).Nodup) :
    c.input ≠ c.output ∧ c.input ∉ c.toneEffects ∧ c.output ∉ c.toneEffects
      ∧ c.toneEffects.Nodup := by
  unfold chainNodes at h
  rw [List.nodup_cons] at h
  obtain ⟨hin, h⟩ := h
  rw [List.nodup_cons] at h
  obtain ⟨hout, hte⟩ := h
  exact ⟨fun he => hin (he ▸ List.mem_cons_self _ _),
    fun he => hin (List.mem_cons_of_mem _ he), hout, hte⟩

/-- Correctness of the rebuild: whatever the graph looked like before, after
rebuildEffectChain the chain is wired input through the enabled nodes to
output, disabled nodes have no outgoing connection, and nodes other than the
chain input and its processing nodes keep their outgoing connections. -/
theorem rebuild_wired (conns : List Edge) (c : EffectChain)
    (hnd : (chainNodes c).Nodup) :
    chainWired (rebuildEffectChain conns c) c ∧
    ∀ n, n ∉ c.input :: c.toneEffects →
      outgoing (rebuildEffectChain conns c) n = outgoing conns n := by
  obtain ⟨hio, hite, hote, hnte⟩ := chainNodes_facts c hnd
  rw [rebuild_eq_linkEdges]
  have hsub := enabledTone_subset c
  refine ⟨⟨?_, ?_⟩, ?_⟩
  · apply pathOk_append_linkEdges
    · intro m hm
      apply outgoing_removeOutgoing_mem
      rcases List.mem_cons.mp hm with rfl | hm
      · simp
      · exact List.mem_cons_of_mem _ (hsub m hm)
    · rw [List.nodup_cons]
      exact ⟨fun h => hite (hsub _ h), (enabledTone_sublist c).nodup hnte⟩
  · intro n hn hne
    rw [outgoing_append, outgoing_removeOutgoing_mem _ _ _ (List.mem_cons_of_mem _ hn),
        outgoing_chainLinkEdges_not_mem]
    · simp
    · intro hmem
      rcases List.mem_cons.mp hmem with rfl | hmem
      · exact hite hn
      · exact hne hmem
  · intro n hn
    rw [outgoing_append, outgoing_removeOutgoing_not_mem _ _ _ hn,
        outgoing_chainLinkEdges_not_mem, List.append_nil]
    intro hmem
    apply hn
    rcases List.mem_cons.mp hmem with rfl | hmem
    · simp
    · exact List.mem_cons_of_mem _ (hsub _ hmem)

/-! ## Chain-map lemmas -/

theorem lookupKey_setKey_self (l : List (Int × EffectChain)) (t : Int) (c : EffectChain) :
    lookupKey (setKey l t c) t = some c := by
  induction l with
  | nil => simp [setKey, lookupKey]
  | cons p rest ih =>
      by_cases h : p.1 = t
      · simp [setKey, h, lookupKey]
      · simp [setKey, h, lookupKey, ih]

theorem lookupKey_setKey_other (l : List (Int × EffectChain)) (t t' : Int) (c : EffectChain)
    (h : t' ≠ t) : lookupKey (setKey l t c) t' = lookupKey l t' := by
  have hts : t ≠ t' := fun he => h he.symm
  induction l with
  | nil =>
      show (if t = t' then some c else none) = none
      rw [if_neg hts]
  | cons p rest ih =>
      by_cases hp : p.1 = t
      · rw [setKey, if_pos hp]
        show (if t = t' then some c else lookupKey rest t') = _
        rw [if_neg hts, lookupKey, if_neg (fun he => hts (hp.symm.trans he))]
      · rw [setKey, if_neg hp, lookupKey, lookupKey, ih]

theorem lookupKey_mem (l : List (Int × EffectChain)) (t : Int) (c : EffectChain)
    (h : lookupKey l t = some c) : (t, c) ∈ l := by
  induction l with
  | nil => simp [lookupKey] at h
  | cons p rest ih =>
      by_cases hp : p.1 = t
      · rw [lookupKey, if_pos hp] at h
        injection h with h2
        show (t, c) ∈ p :: rest
        rw [← hp, ← h2]
        exact List.mem_cons_self p rest
      · rw [lookupKey, if_neg hp] at h
        exact List.mem_cons_of_mem _ (ih h)

theorem lookupKey_eq_none (l : List (Int × EffectChain)) (t : Int)
    (h : lookupKey l t = none) : ∀ p ∈ l, p.1 ≠ t := by
  induction l with
  | nil => simp
  | cons p rest ih =>
      by_cases hp : p.1 = t
      · rw [lookupKey, if_pos hp] at h
        cases h
      · rw [lookupKey, if_neg hp] at h
        intro q hq
        rcases List.mem_cons.mp hq with rfl | hq
        · exact hp
        · exact ih h q hq

theorem setKey_of_absent (l : List (Int × EffectChain)) (t : Int) (c : EffectChain)
    (h : ∀ p ∈ l, p.1 ≠ t) : setKey l t c = l ++ [(t, c)] := by
  induction l with
  | nil => rfl
  | cons p rest ih =>
      rw [setKey, if_neg (h p (List.mem_cons_self p rest)), ih]
      · rfl
      · exact fun q hq => h q (List.mem_cons_of_mem _ hq)

theorem mem_setKey (l : List (Int × EffectChain)) (t : Int) (c : EffectChain) :
    ∀ p ∈ setKey l t c, p = (t, c) ∨ p ∈ l := by
  induction l with
  | nil => simp [setKey]
  | cons q rest ih =>
      by_cases hq : q.1 = t
      · intro p hp
        rw [setKey, if_pos hq] at hp
        rcases List.mem_cons.mp hp with rfl | hp
        · exact Or.inl rfl
        · exact Or.inr (List.mem_cons_of_mem _ hp)
      · intro p hp
        rw [setKey, if_neg hq] at hp
        rcases List.mem_cons.mp hp with rfl | hp
        · exact Or.inr (List.mem_cons_self _ _)
        · rcases ih p hp with h | h
          · exact Or.inl h
          · exact Or.inr (List.mem_cons_of_mem _ h)

theorem keys_setKey_mem (l : List (Int × EffectChain)) (t : Int) (c : EffectChain) :
    ∀ x ∈ (setKey l t c).map Prod.fst, x ∈ l.map Prod.fst ∨ x = t := by
  intro x hx
  obtain ⟨p, hp, rfl⟩ := List.mem_map.mp hx
  rcases mem_setKey l t c p hp with rfl | hp
  · exact Or.inr rfl
  · exact Or.inl (List.mem_map_of_mem Prod.fst hp)

theorem keys_setKey_nodup (l : List (Int × EffectChain)) (t : Int) (c : EffectChain)
    (h : (l.map Prod.fst).Nodup) : ((setKey l t c).map Prod.fst).Nodup := by
  induction l with
  | nil => simp [setKey]
  | cons p rest ih =>
      rw [List.map_cons, List.nodup_cons] at h
      by_cases hp : p.1 = t
      · rw [setKey, if_pos hp, List.map_cons, List.nodup_cons]
        exact ⟨hp ▸ h.1, h.2⟩
      · rw [setKey, if_neg hp, List.map_cons, List.nodup_cons]
        refine ⟨?_, ih h.2⟩
        intro hmem
        rcases keys_setKey_mem rest t c p.1 hmem with hmem | hmem
        · exact h.1 hmem
        · exact hp hmem

theorem setKey_lookup_self (l : List (Int × EffectChain)) (t : Int) (c : EffectChain)
    (h : lookupKey l t = some c) : setKey l t c = l := by
  induction l with
  | nil => simp [lookupKey] at h
  | cons p rest ih =>
      by_cases hp : p.1 = t
      · rw [lookupKey, if_pos hp] at h
        cases h
        rw [setKey, if_pos hp]
        obtain ⟨p1, p2⟩ := p
        cases hp
        rfl
      · rw [lookupKey, if_neg hp] at h
        rw [setKey, if_neg hp, ih h]

theorem setKey_setKey (l : List (Int × EffectChain)) (t : Int) (c c' : EffectChain) :
    setKey (setKey l t c) t c' = setKey l t c' := by
  induction l with
  | nil => simp [setKey]
  | cons p rest ih =>
      by_cases hp : p.1 = t
      · rw [setKey, if_pos hp, setKey, if_pos rfl, setKey, if_pos hp]
      · rw [setKey, if_neg hp, setKey, if_neg hp, setKey, if_neg hp, ih]

/-! ## Node footprints of the chain map -/

/-- All node handles owned by any chain in the map. -/
def chainsNodes (l : List (Int × EffectChain)) : List Nat :=
  (l.map (fun p => chainNodes p.2)).flatten

theorem chainsNodes_cons (p : Int × EffectChain) (rest : List (Int × EffectChain)) :
    chainsNodes (p :: rest) = chainNodes p.2 ++ chainsNodes rest := by
  simp [chainsNodes]

theorem chainsNodes_append (l1 l2 : List (Int × EffectChain)) :
    chainsNodes (l1 ++ l2) = chainsNodes l1 ++ chainsNodes l2 := by
  simp [chainsNodes]

theorem mem_chainsNodes_of_mem (l : List (Int × EffectChain)) (t : Int) (c : EffectChain)
    (hc : (t, c) ∈ l) : ∀ n ∈ chainNodes c, n ∈ chainsNodes l := by
  intro n hn
  unfold chainsNodes
  rw [List.mem_flatten]
  exact ⟨chainNodes c, List.mem_map.mpr ⟨(t, c), hc, rfl⟩, hn⟩

theorem chainNodes_sublist_chainsNodes (l : List (Int × EffectChain)) (t : Int)
    (c : EffectChain) (hc : (t, c) ∈ l) : (chainNodes c).Sublist (chainsNodes l) := by
  induction l with
  | nil => cases hc
  | cons p rest ih =>
      rw [chainsNodes_cons]
      rcases List.mem_cons.mp hc with rfl | hc
      · exact List.sublist_append_left _ _
      · exact (ih hc).trans (List.sublist_append_right _ _)

theorem mem_chainsNodes_setKey (l : List (Int × EffectChain)) (t : Int)
    (c c' : EffectChain) (extra : List Nat)
    (hl : lookupKey l t = some c)
    (hsub : ∀ n ∈ chainNodes c', n ∈ chainNodes c ++ extra) :
    ∀ n ∈ chainsNodes (setKey l t c'), n ∈ chainsNodes l ++ extra := by
  induction l with
  | nil => simp [lookupKey] at hl
  | cons p rest ih =>
      by_cases hp : p.1 = t
      · rw [lookupKey, if_pos hp] at hl
        cases hl
        intro n hn
        rw [setKey, if_pos hp, chainsNodes_cons] at hn
        rw [chainsNodes_cons]
        rcases List.mem_append.mp hn with hn | hn
        · rcases List.mem_append.mp (hsub n hn) with h | h
          · exact List.mem_append.mpr (Or.inl (List.mem_append.mpr (Or.inl h)))
          · exact List.mem_append.mpr (Or.inr h)
        · exact List.mem_append.mpr (Or.inl (List.mem_append.mpr (Or.inr hn)))
      · rw [lookupKey, if_neg hp] at hl
        intro n hn
        rw [setKey, if_neg hp, chainsNodes_cons] at hn
        rw [chainsNodes_cons]
        rcases List.mem_append.mp hn with hn | hn
        · exact List.mem_append.mpr (Or.inl (List.mem_append.mpr (Or.inl hn)))
        · rcases List.mem_append.mp (ih hl n hn) with h | h
          · exact List.mem_append.mpr (Or.inl (List.mem_append.mpr (Or.inr h)))
          · exact List.mem_append.mpr (Or.inr h)

theorem chainsNodes_setKey_nodup (l : List (Int × EffectChain)) (t : Int)
    (c c' : EffectChain) (extra : List Nat)
    (hl : lookupKey l t = some c)
    (hnd : (chainsNodes l ++ extra).Nodup)
    (hc' : (chainNodes c').Nodup)
    (hsub : ∀ n ∈ chainNodes c', n ∈ chainNodes c ++ extra) :
    (chainsNodes (setKey l t c')).Nodup := by
  induction l with
  | nil => simp [lookupKey] at hl
  | cons p rest ih =>
      by_cases hp : p.1 = t
      · rw [lookupKey, if_pos hp] at hl
        cases hl
        rw [setKey, if_pos hp, chainsNodes_cons]
        rw [chainsNodes_cons, List.append_assoc, List.nodup_append] at hnd
        obtain ⟨hA, hRE, hdisj⟩ := hnd
        rw [List.nodup_append] at hRE
        obtain ⟨hR, hE, hREdisj⟩ := hRE
        rw [List.nodup_append]
        refine ⟨hc', hR, ?_⟩
        intro x hx hxR
        rcases List.mem_append.mp (hsub x hx) with h | h
        · exact hdisj h (List.mem_append.mpr (Or.inl hxR))
        · exact hREdisj hxR h
      · rw [lookupKey, if_neg hp] at hl
        rw [setKey, if_neg hp, chainsNodes_cons]
        rw [chainsNodes_cons, List.append_assoc, List.nodup_append] at hnd
        obtain ⟨hA, hRE, hdisj⟩ := hnd
        rw [List.nodup_append]
        refine ⟨hA, ih hl (by rw [List.nodup_append] at hRE ⊢; exact hRE), ?_⟩
        intro x hx hxS
        have := mem_chainsNodes_setKey rest t c c' extra hl hsub x hxS
        exact hdisj hx this

/-! ## State well-formedness -/

/-- Well-formedness of an engine state: distinct track keys, globally distinct
chain-owned node handles, all handles positive (the destination is 0) and
below the allocation counter, aligned sequence lengths, edges within the
allocated range, every chain's output wired to the destination, and node-heap
keys within range. -/
def stateWF (s : EngineState) : Prop :=
  0 < s.fresh ∧
  (s.chains.map Prod.fst).Nodup ∧
  (chainsNodes s.chains).Nodup ∧
  (∀ n ∈ chainsNodes s.chains, 0 < n ∧ n < s.fresh) ∧
  (∀ p ∈ s.chains, p.2.effects.length = p.2.toneEffects.length) ∧
  (∀ e ∈ s.conns, e.1 < s.fresh ∧ e.2 < s.fresh) ∧
  (∀ p ∈ s.chains, (p.2.output, destination) ∈ s.conns) ∧
  (∀ q ∈ s.nodes, q.1 < s.fresh)

instance (s : EngineState) : Decidable (stateWF s) := by
  unfold stateWF
  infer_instance

theorem stateWF_initial : stateWF initialState := by decide

theorem not_mem_keys_of_lookup_none (l : List (Int × EffectChain)) (t : Int)
    (h : lookupKey l t = none) : t ∉ l.map Prod.fst := by
  intro hmem
  obtain ⟨p, hp, hpt⟩ := List.mem_map.mp hmem
  exact lookupKey_eq_none l t h p hp hpt

theorem rebuild_mem (conns : List Edge) (c : EffectChain) :
    ∀ e ∈ rebuildEffectChain conns c,
      e ∈ conns ∨ (e.1 ∈ chainNodes c ∧ e.2 ∈ chainNodes c) := by
  intro e he
  rw [rebuild_eq_linkEdges] at he
  rcases List.mem_append.mp he with he | he
  · exact Or.inl (List.mem_filter.mp he).1
  · right
    obtain ⟨h1, h2⟩ := chainLinkEdges_mem _ _ _ e he
    have hsub := enabledTone_subset c
    constructor
    · rcases List.mem_cons.mp h1 with h1 | h1
      · rw [h1]
        exact List.mem_cons_self _ _
      · exact List.mem_cons_of_mem _ (List.mem_cons_of_mem _ (hsub _ h1))
    · rcases List.mem_append.mp h2 with h2 | h2
      · exact List.mem_cons_of_mem _ (List.mem_cons_of_mem _ (hsub _ h2))
      · rw [List.mem_singleton] at h2
        rw [h2]
        exact List.mem_cons_of_mem _ (List.mem_cons_self _ _)

theorem mem_rebuild_of_not_source (conns : List Edge) (c : EffectChain) (e : Edge)
    (he : e ∈ conns) (h : e.1 ∉ c.input :: c.toneEffects) :
    e ∈ rebuildEffectChain conns c := by
  rw [rebuild_eq_linkEdges]
  apply List.mem_append.mpr
  left
  unfold removeOutgoing
  rw [List.mem_filter]
  exact ⟨he, by simpa using h⟩

theorem chainsNodes_disjoint (l : List (Int × EffectChain))
    (hnd : (chainsNodes l).Nodup) (t1 t2 : Int) (c1 c2 : EffectChain)
    (h1 : lookupKey l t1 = some c1) (h2 : lookupKey l t2 = some c2) (hne : t1 ≠ t2) :
    ∀ n ∈ chainNodes c1, n ∉ chainNodes c2 := by
  induction l with
  | nil => simp [lookupKey] at h1
  | cons p rest ih =>
      rw [chainsNodes_cons, List.nodup_append] at hnd
      obtain ⟨hA, hR, hdisj⟩ := hnd
      by_cases hp1 : p.1 = t1
      · rw [lookupKey, if_pos hp1] at h1
        injection h1 with h1
        rw [lookupKey, if_neg (fun h => hne (hp1.symm.trans h))] at h2
        intro n hn hn2
        have : n ∈ chainsNodes rest :=
          mem_chainsNodes_of_mem rest t2 c2 (lookupKey_mem rest t2 c2 h2) n hn2
        exact hdisj (h1 ▸ hn) this
      · by_cases hp2 : p.1 = t2
        · rw [lookupKey, if_pos hp2] at h2
          injection h2 with h2
          rw [lookupKey, if_neg hp1] at h1
          intro n hn hn2
          have : n ∈ chainsNodes rest :=
            mem_chainsNodes_of_mem rest t1 c1 (lookupKey_mem rest t1 c1 h1) n hn
          exact hdisj (h2 ▸ hn2) this
        · rw [lookupKey, if_neg hp1] at h1
          rw [lookupKey, if_neg hp2] at h2
          exact ih hR h1 h2

theorem setNode_keys (l : List (Nat × ToneNodeState)) (n : Nat)
    (f : ToneNodeState → ToneNodeState) : (setNode l n f).map Prod.fst = l.map Prod.fst := by
  unfold setNode
  rw [List.map_map]
  apply List.map_congr_left
  intro p _
  by_cases h : p.1 = n <;> simp [h]

/-- The facts stateWF gives about one stored chain. -/
theorem chain_facts_of_lookup (s : EngineState) (t : Int) (c : EffectChain)
    (h : stateWF s) (hl : lookupKey s.chains t = some c) :
    (chainNodes c).Nodup ∧ (∀ n ∈ chainNodes c, 0 < n ∧ n < s.fresh)
      ∧ c.effects.length = c.toneEffects.length
      ∧ (c.output, destination) ∈ s.conns := by
  obtain ⟨-, -, hnodes, hbound, hlen, -, hout, -⟩ := h
  have hmem := lookupKey_mem s.chains t c hl
  refine ⟨?_, ?_, hlen (t, c) hmem, hout (t, c) hmem⟩
  · exact (chainNodes_sublist_chainsNodes s.chains t c hmem).nodup hnodes
  · intro n hn
    exact hbound n (mem_chainsNodes_of_mem s.chains t c hmem n hn)

/-! ## Well-formedness preservation -/

theorem createEffectChain_result (s : EngineState) (t : Int)
    (hnone : lookupKey s.chains t = none) :
    (createEffectChain s t).2 = { s with
        nodes := s.nodes ++ [(s.fresh, .gain 1), (s.fresh + 1, .gain 1)]
        conns := s.conns ++ [(s.fresh, s.fresh + 1), (s.fresh + 1, destination)]
        fresh := s.fresh + 2
        chains := s.chains ++ [(t, ⟨t, [], [], s.fresh, s.fresh + 1⟩)] } := by
  unfold createEffectChain
  dsimp only
  rw [setKey_of_absent _ _ _ (lookupKey_eq_none s.chains t hnone)]

theorem createEffectChain_WF (s : EngineState) (t : Int) (h : stateWF s)
    (hnone : lookupKey s.chains t = none) :
    stateWF (createEffectChain s t).2 := by
  obtain ⟨hpos, hkeys, hnodes, hbound, hlen, hconns, hout, hnk⟩ := h
  have hkeyt := not_mem_keys_of_lookup_none s.chains t hnone
  set c0 : EffectChain := ⟨t, [], [], s.fresh, s.fresh + 1⟩ with hc0
  have hcn : chainNodes c0 = [s.fresh, s.fresh + 1] := rfl
  have h1 : 0 < s.fresh + 2 := by omega
  have h2 : ((s.chains ++ [(t, c0)]).map Prod.fst).Nodup := by
    rw [List.map_append, List.nodup_append]
    refine ⟨hkeys, by simp, ?_⟩
    intro x hx hx2
    simp at hx2
    exact hkeyt (hx2 ▸ hx)
  have h3 : (chainsNodes (s.chains ++ [(t, c0)])).Nodup := by
    rw [chainsNodes_append, List.nodup_append]
    refine ⟨hnodes, ?_, ?_⟩
    · simp [chainsNodes, hcn]
    · intro x hx hx2
      have hxb := (hbound x hx).2
      simp only [chainsNodes, List.map_cons, List.map_nil, List.flatten_cons,
        List.flatten_nil, List.append_nil, hcn, List.mem_cons,
        List.not_mem_nil, or_false] at hx2
      omega
  have h4 : ∀ n ∈ chainsNodes (s.chains ++ [(t, c0)]), 0 < n ∧ n < s.fresh + 2 := by
    intro n hn
    rw [chainsNodes_append] at hn
    rcases List.mem_append.mp hn with hn | hn
    · have := hbound n hn
      omega
    · simp only [chainsNodes, List.map_cons, List.map_nil, List.flatten_cons,
        List.flatten_nil, List.append_nil, hcn, List.mem_cons,
        List.not_mem_nil, or_false] at hn
      omega
  have h5 : ∀ p ∈ s.chains ++ [(t, c0)], p.2.effects.length = p.2.toneEffects.length := by
    intro p hp
    rcases List.mem_append.mp hp with hp | hp
    · exact hlen p hp
    · simp at hp
      rw [hp]
      rfl
  have h6 : ∀ e ∈ s.conns ++ [(s.fresh, s.fresh + 1), (s.fresh + 1, destination)],
      e.1 < s.fresh + 2 ∧ e.2 < s.fresh + 2 := by
    intro e he
    rcases List.mem_append.mp he with he | he
    · have := hconns e he
      omega
    · simp at he
      rcases he with he | he
      · rw [he]
        exact ⟨by omega, by omega⟩
      · rw [he]
        refine ⟨by omega, ?_⟩
        show destination < s.fresh + 2
        rw [destination]
        omega
  have h7 : ∀ p ∈ s.chains ++ [(t, c0)],
      (p.2.output, destination) ∈ s.conns ++ [(s.fresh, s.fresh + 1), (s.fresh + 1, destination)] := by
    intro p hp
    rcases List.mem_append.mp hp with hp | hp
    · exact List.mem_append.mpr (Or.inl (hout p hp))
    · simp at hp
      rw [hp]
      simp
  have h8 : ∀ q ∈ s.nodes ++ [(s.fresh, ToneNodeState.gain 1), (s.fresh + 1, ToneNodeState.gain 1)],
      q.1 < s.fresh + 2 := by
    intro q hq
    rcases List.mem_append.mp hq with hq | hq
    · have := hnk q hq
      omega
    · simp at hq
      rcases hq with hq | hq
      · rw [hq]
        show s.fresh < s.fresh + 2
        omega
      · rw [hq]
        show s.fresh + 1 < s.fresh + 2
        omega
  rw [createEffectChain_result s t hnone]
  exact ⟨h1, h2, h3, h4, h5, h6, h7, h8⟩

theorem getEffectChain_WF (s : EngineState) (t : Int) (h : stateWF s) :
    stateWF (getEffectChain s t).2 := by
  unfold getEffectChain
  cases hl : lookupKey s.chains t with
  | some c => exact h
  | none => exact createEffectChain_WF s t h hl

theorem getEffectChain_lookup (s : EngineState) (t : Int) :
    lookupKey (getEffectChain s t).2.chains t = some (getEffectChain s t).1 := by
  unfold getEffectChain
  cases hl : lookupKey s.chains t with
  | some c => exact hl
  | none =>
      unfold createEffectChain
      dsimp only
      exact lookupKey_setKey_self _ _ _

theorem getEffectChain_conns_mono (s : EngineState) (t : Int) (e : Edge) (he : e ∈ s.conns) :
    e ∈ (getEffectChain s t).2.conns := by
  unfold getEffectChain
  cases hl : lookupKey s.chains t with
  | some c => exact he
  | none =>
      unfold createEffectChain
      dsimp only
      exact List.mem_append.mpr (Or.inl he)

theorem getEffectChain_fresh_le (s : EngineState) (t : Int) :
    s.fresh ≤ (getEffectChain s t).2.fresh := by
  unfold getEffectChain
  cases hl : lookupKey s.chains t with
  | some c => exact Nat.le_refl _
  | none =>
      unfold createEffectChain
      dsimp only
      omega

/-! ## Operation result shapes -/

theorem addEffect_result_none (s : EngineState) (t : Int) (e : TrackEffect)
    (hct : createToneEffect e = none) : addEffect s t e = (getEffectChain s t).2 := by
  unfold addEffect
  cases hg : getEffectChain s t with
  | mk c s1 => rw [hct]

theorem addEffect_result (s : EngineState) (t : Int) (e : TrackEffect) (c : EffectChain)
    (s1 : EngineState) (ns : ToneNodeState)
    (hg : getEffectChain s t = (c, s1)) (hct : createToneEffect e = some ns) :
    addEffect s t e =
      { s1 with
          nodes := s1.nodes ++ [(s1.fresh, ns)]
          fresh := s1.fresh + 1
          chains := setKey s1.chains t
            { c with effects := c.effects ++ [e], toneEffects := c.toneEffects ++ [s1.fresh] }
          conns := rebuildEffectChain s1.conns
            { c with effects := c.effects ++ [e], toneEffects := c.toneEffects ++ [s1.fresh] } } := by
  unfold addEffect
  rw [hg, hct]

theorem removeEffect_result_none (s : EngineState) (t : Int) (effectId : String)
    (hfi : (getEffectChain s t).1.effects.findIdx? (fun e => e.id == effectId) = none) :
    removeEffect s t effectId = (getEffectChain s t).2 := by
  unfold removeEffect
  cases hg : getEffectChain s t with
  | mk c s1 =>
      rw [hg] at hfi
      dsimp only
      rw [hfi]

theorem removeEffect_result (s : EngineState) (t : Int) (effectId : String)
    (c : EffectChain) (s1 : EngineState) (i : Nat) (nid : Nat)
    (hg : getEffectChain s t = (c, s1))
    (hfi : c.effects.findIdx? (fun e => e.id == effectId) = some i)
    (hni : c.toneEffects.get? i = some nid) :
    removeEffect s t effectId =
      { s1 with
          conns := rebuildEffectChain
            (s1.conns.filter (fun e => decide (e.1 ≠ nid ∧ e.2 ≠ nid)))
            { c with effects := c.effects.eraseIdx i, toneEffects := c.toneEffects.eraseIdx i }
          disposed := s1.disposed ++ [nid]
          chains := setKey s1.chains t
            { c with effects := c.effects.eraseIdx i, toneEffects := c.toneEffects.eraseIdx i } } := by
  unfold removeEffect
  rw [hg]
  dsimp only
  rw [hfi]
  dsimp only
  rw [hni]

theorem updateEffect_result_none (s : EngineState) (t : Int) (effectId : String)
    (patch : EffectPatch)
    (hfi : (getEffectChain s t).1.effects.findIdx? (fun e => e.id == effectId) = none) :
    updateEffect s t effectId patch = (getEffectChain s t).2 := by
  unfold updateEffect
  cases hg : getEffectChain s t with
  | mk c s1 =>
      rw [hg] at hfi
      dsimp only
      rw [hfi]

theorem updateEffect_result (s : EngineState) (t : Int) (effectId : String)
    (patch : EffectPatch) (c : EffectChain) (s1 : EngineState) (i : Nat) (nid : Nat)
    (e0 : TrackEffect)
    (hg : getEffectChain s t = (c, s1))
    (hfi : c.effects.findIdx? (fun e => e.id == effectId) = some i)
    (hei : c.effects.get? i = some e0)
    (hni : c.toneEffects.get? i = some nid) :
    updateEffect s t effectId patch =
      { s1 with
          chains := setKey s1.chains t
            { c with effects := c.effects.set i { e0 with params := mergeParams e0.params patch } }
          nodes := setNode s1.nodes nid
            (fun n => updateToneEffectParams n e0.kind (mergeParams e0.params patch)) } := by
  unfold updateEffect
  rw [hg]
  dsimp only
  rw [hfi]
  dsimp only
  rw [hei, hni]

theorem toggleEffect_result_none (s : EngineState) (t : Int) (effectId : String)
    (hfi : (getEffectChain s t).1.effects.findIdx? (fun e => e.id == effectId) = none) :
    toggleEffect s t effectId = (getEffectChain s t).2 := by
  unfold toggleEffect
  cases hg : getEffectChain s t with
  | mk c s1 =>
      rw [hg] at hfi
      dsimp only
      rw [hfi]

theorem toggleEffect_result (s : EngineState) (t : Int) (effectId : String)
    (c : EffectChain) (s1 : EngineState) (i : Nat) (e0 : TrackEffect)
    (hg : getEffectChain s t = (c, s1))
    (hfi : c.effects.findIdx? (fun e => e.id == effectId) = some i)
    (hei : c.effects.get? i = some e0) :
    toggleEffect s t effectId =
      { s1 with
          chains := setKey s1.chains t
            { c with effects := c.effects.set i { e0 with enabled := !e0.enabled } }
          conns := rebuildEffectChain s1.conns
            { c with effects := c.effects.set i { e0 with enabled := !e0.enabled } } } := by
  unfold toggleEffect
  rw [hg]
  dsimp only
  rw [hfi]
  dsimp only
  rw [hei]

theorem getChainInput_result (s : EngineState) (t : Int) :
    getChainInput s t = ((getEffectChain s t).1.input, (getEffectChain s t).2) := rfl

/-! ## Generic chain-replacement well-formedness -/

theorem lookup_of_mem_keys_nodup (l : List (Int × EffectChain))
    (hk : (l.map Prod.fst).Nodup) (t : Int) (c : EffectChain) (hm : (t, c) ∈ l) :
    lookupKey l t = some c := by
  induction l with
  | nil => cases hm
  | cons p rest ih =>
      rw [List.map_cons, List.nodup_cons] at hk
      rcases List.mem_cons.mp hm with rfl | hm
      · rw [lookupKey, if_pos rfl]
      · by_cases hp : p.1 = t
        · exfalso
          apply hk.1
          rw [hp]
          exact List.mem_map_of_mem Prod.fst hm
        · rw [lookupKey, if_neg hp]
          exact ih hk.2 hm

theorem stateWF_setChain (s1 : EngineState) (t : Int) (c c' : EffectChain)
    (extra : List Nat) (nodes' : List (Nat × ToneNodeState)) (conns' : List Edge)
    (fresh' : Nat) (disposed' : List Nat)
    (h : stateWF s1)
    (hl : lookupKey s1.chains t = some c)
    (hnodup : (chainNodes c').Nodup)
    (hsub : ∀ n ∈ chainNodes c', n ∈ chainNodes c ++ extra)
    (hexnd : extra.Nodup)
    (hextra : ∀ n ∈ extra, s1.fresh ≤ n ∧ n < fresh' ∧ 0 < n)
    (hfr : s1.fresh ≤ fresh')
    (hlen' : c'.effects.length = c'.toneEffects.length)
    (hconns' : ∀ e ∈ conns', e.1 < fresh' ∧ e.2 < fresh')
    (hout' : ∀ p ∈ setKey s1.chains t c', (p.2.output, destination) ∈ conns')
    (hnk' : ∀ q ∈ nodes', q.1 < fresh') :
    stateWF { chains := setKey s1.chains t c', nodes := nodes', conns := conns',
              fresh := fresh', disposed := disposed' } := by
  obtain ⟨hpos, hkeys, hnodes, hbound, hlen, hconns, hout, hnk⟩ := h
  refine ⟨by show 0 < fresh'; omega, ?_, ?_, ?_, ?_, hconns', hout', hnk'⟩
  · exact keys_setKey_nodup _ _ _ hkeys
  · apply chainsNodes_setKey_nodup s1.chains t c c' extra hl ?_ hnodup hsub
    rw [List.nodup_append]
    refine ⟨hnodes, hexnd, ?_⟩
    intro x hx hx2
    have hb := (hbound x hx).2
    have hx3 := (hextra x hx2).1
    omega
  · show ∀ n ∈ chainsNodes (setKey s1.chains t c'), 0 < n ∧ n < fresh'
    intro n hn
    have hm := mem_chainsNodes_setKey s1.chains t c c' extra hl hsub n hn
    rcases List.mem_append.mp hm with hm | hm
    · have := hbound n hm
      omega
    · have := hextra n hm
      omega
  · show ∀ p ∈ setKey s1.chains t c', p.2.effects.length = p.2.toneEffects.length
    intro p hp
    rcases mem_setKey _ _ _ p hp with rfl | hp
    · exact hlen'
    · exact hlen p hp

/-- No stored chain's output boundary node is the input of the mutated chain
or one of a list of processing nodes contained in the mutated chain's old
nodes plus freshly allocated ones. -/
theorem output_not_source (s1 : EngineState) (t : Int) (c : EffectChain)
    (h : stateWF s1) (hl : lookupKey s1.chains t = some c)
    (extra : List Nat) (hextra : ∀ n ∈ extra, s1.fresh ≤ n)
    (tone' : List Nat) (hsubt : ∀ n ∈ tone', n ∈ c.toneEffects ++ extra) :
    ∀ p ∈ s1.chains, p.2.output ∉ c.input :: tone' := by
  obtain ⟨hpos, hkeys, hnodes, hbound, hlen, hconns, hout, hnk⟩ := h
  intro p hp hmem
  have houtmem : p.2.output ∈ chainNodes p.2 := by
    unfold chainNodes
    exact List.mem_cons_of_mem _ (List.mem_cons_self _ _)
  have hpmem : (p.1, p.2) ∈ s1.chains := by simpa using hp
  have hob : p.2.output < s1.fresh :=
    (hbound _ (mem_chainsNodes_of_mem s1.chains p.1 p.2 hpmem _ houtmem)).2
  have hcase : p.2.output ∈ c.input :: c.toneEffects ∨ p.2.output ∈ extra := by
    rcases List.mem_cons.mp hmem with hmem | hmem
    · exact Or.inl (hmem ▸ List.mem_cons_self _ _)
    · rcases List.mem_append.mp (hsubt _ hmem) with hmem | hmem
      · exact Or.inl (List.mem_cons_of_mem _ hmem)
      · exact Or.inr hmem
  rcases hcase with hcase | hcase
  · by_cases hpt : p.1 = t
    · have hpl : lookupKey s1.chains p.1 = some p.2 :=
        lookup_of_mem_keys_nodup s1.chains hkeys p.1 p.2 hpmem
      rw [hpt, hl] at hpl
      injection hpl with hpl
      have hnd : (chainNodes c).Nodup :=
        (chainNodes_sublist_chainsNodes s1.chains t c (lookupKey_mem _ _ _ hl)).nodup hnodes
      obtain ⟨hio, hite, hote, hnte⟩ := chainNodes_facts c hnd
      rw [← hpl] at hcase
      rcases List.mem_cons.mp hcase with hcase | hcase
      · exact hio hcase.symm
      · exact hote hcase
    · have hpl : lookupKey s1.chains p.1 = some p.2 :=
        lookup_of_mem_keys_nodup s1.chains hkeys p.1 p.2 hpmem
      have hdisj := chainsNodes_disjoint s1.chains hnodes p.1 t p.2 c hpl hl hpt
      apply hdisj _ houtmem
      rcases List.mem_cons.mp hcase with hcase | hcase
      · rw [hcase]
        exact List.mem_cons_self _ _
      · exact List.mem_cons_of_mem _ (List.mem_cons_of_mem _ hcase)
  · have := hextra _ hcase
    omega

/-- No stored chain's output boundary node, and not the destination either,
is a processing node of the mutated chain. -/
theorem output_ne_tone (s1 : EngineState) (t : Int) (c : EffectChain)
    (h : stateWF s1) (hl : lookupKey s1.chains t = some c)
    (nid : Nat) (hnid : nid ∈ c.toneEffects) :
    (∀ p ∈ s1.chains, p.2.output ≠ nid) ∧ destination ≠ nid := by
  have hmain := output_not_source s1 t c h hl [] (by simp) c.toneEffects (by simp)
  constructor
  · intro p hp hbad
    exact hmain p hp (hbad ▸ List.mem_cons_of_mem _ hnid)
  · obtain ⟨hpos, hkeys, hnodes, hbound, hlen, hconns, hout, hnk⟩ := h
    have : nid ∈ chainNodes c :=
      List.mem_cons_of_mem _ (List.mem_cons_of_mem _ hnid)
    have hb := hbound nid
      (mem_chainsNodes_of_mem s1.chains t c (lookupKey_mem _ _ _ hl) nid this)
    intro hbad
    rw [destination] at hbad
    omega

theorem rebuild_bound (conns : List Edge) (c : EffectChain) (B : Nat)
    (hc : ∀ e ∈ conns, e.1 < B ∧ e.2 < B) (hn : ∀ n ∈ chainNodes c, n < B) :
    ∀ e ∈ rebuildEffectChain conns c, e.1 < B ∧ e.2 < B := by
  intro e he
  rcases rebuild_mem conns c e he with he | he
  · exact hc e he
  · exact ⟨hn _ he.1, hn _ he.2⟩

theorem findIdx?_spec (p : TrackEffect → Bool) (l : List TrackEffect) (i : Nat)
    (h : l.findIdx? p = some i) :
    i < l.length ∧ ∃ x, l.get? i = some x ∧ p x = true := by
  rw [List.findIdx?_eq_some_iff_findIdx_eq] at h
  obtain ⟨hlt, hfi⟩ := h
  subst hfi
  refine ⟨hlt, l[List.findIdx p l], ?_, ?_⟩
  · rw [List.get?_eq_getElem?, List.getElem?_eq_some]
    exact ⟨hlt, rfl⟩
  · exact List.findIdx_getElem

/-! ## Per-operation well-formedness preservation -/

theorem addEffect_WF (s : EngineState) (t : Int) (e : TrackEffect) (h : stateWF s) :
    stateWF (addEffect s t e) := by
  cases hg : getEffectChain s t with
  | mk c s1 =>
  have h1 : stateWF s1 := by
    have := getEffectChain_WF s t h
    rwa [hg] at this
  have hl : lookupKey s1.chains t = some c := by
    have := getEffectChain_lookup s t
    rwa [hg] at this
  cases hct : createToneEffect e with
  | none =>
      rw [addEffect_result_none s t e hct, hg]
      exact h1
  | some ns =>
      rw [addEffect_result s t e c s1 ns hg hct]
      obtain ⟨hcnd, hcb, hclen, hcout⟩ := chain_facts_of_lookup s1 t c h1 hl
      have h1c := h1
      obtain ⟨hpos1, hkeys1, hnodes1, hbound1, hlen1, hconns1, hout1, hnk1⟩ := h1c
      have hcn' : chainNodes
          { c with effects := c.effects ++ [e], toneEffects := c.toneEffects ++ [s1.fresh] }
          = chainNodes c ++ [s1.fresh] := by
        simp [chainNodes]
      have hsafe := output_not_source s1 t c h1 hl [s1.fresh] (by simp)
        (c.toneEffects ++ [s1.fresh]) (fun n hn => hn)
      apply stateWF_setChain s1 t c _ [s1.fresh] _ _ (s1.fresh + 1) _ h1 hl
      · rw [hcn', List.nodup_append]
        refine ⟨hcnd, by simp, ?_⟩
        intro x hx hx2
        have := (hcb x hx).2
        simp at hx2
        omega
      · rw [hcn']
        exact fun n hn => hn
      · simp
      · intro n hn
        simp at hn
        rw [hn]
        exact ⟨Nat.le_refl _, by omega, hpos1⟩
      · omega
      · show (c.effects ++ [e]).length = (c.toneEffects ++ [s1.fresh]).length
        simp [hclen]
      · apply rebuild_bound
        · intro e2 he2
          have := hconns1 e2 he2
          omega
        · rw [hcn']
          intro n hn
          rcases List.mem_append.mp hn with hn | hn
          · have := (hcb n hn).2
            omega
          · simp at hn
            omega
      · intro p hp
        rcases mem_setKey _ _ _ p hp with hpe | hp
        · rw [hpe]
          apply mem_rebuild_of_not_source _ _ _ hcout
          exact hsafe (t, c) (lookupKey_mem _ _ _ hl)
        · apply mem_rebuild_of_not_source _ _ _ (hout1 p hp)
          exact hsafe p hp
      · intro q hq
        rcases List.mem_append.mp hq with hq | hq
        · have := hnk1 q hq
          omega
        · simp at hq
          rw [hq]
          omega

theorem toggleEffect_WF (s : EngineState) (t : Int) (effectId : String) (h : stateWF s) :
    stateWF (toggleEffect s t effectId) := by
  cases hg : getEffectChain s t with
  | mk c s1 =>
  have h1 : stateWF s1 := by
    have := getEffectChain_WF s t h
    rwa [hg] at this
  have hl : lookupKey s1.chains t = some c := by
    have := getEffectChain_lookup s t
    rwa [hg] at this
  cases hfi : c.effects.findIdx? (fun e => e.id == effectId) with
  | none =>
      rw [toggleEffect_result_none s t effectId (by rw [hg]; exact hfi), hg]
      exact h1
  | some i =>
      obtain ⟨hilt, e0, hei, hpe⟩ := findIdx?_spec _ _ _ hfi
      rw [toggleEffect_result s t effectId c s1 i e0 hg hfi hei]
      obtain ⟨hcnd, hcb, hclen, hcout⟩ := chain_facts_of_lookup s1 t c h1 hl
      have h1c := h1
      obtain ⟨hpos1, hkeys1, hnodes1, hbound1, hlen1, hconns1, hout1, hnk1⟩ := h1c
      have hcn' : chainNodes
          { c with effects := c.effects.set i { e0 with enabled := !e0.enabled } }
          = chainNodes c := rfl
      have hsafe := output_not_source s1 t c h1 hl [] (by simp)
        c.toneEffects (by simp)
      apply stateWF_setChain s1 t c _ [] _ _ s1.fresh _ h1 hl
      · rw [hcn']
        exact hcnd
      · rw [hcn']
        intro n hn
        simpa using hn
      · exact List.nodup_nil
      · intro n hn
        cases hn
      · exact Nat.le_refl _
      · show (c.effects.set i _).length = c.toneEffects.length
        rw [List.length_set]
        exact hclen
      · apply rebuild_bound
        · exact hconns1
        · rw [hcn']
          intro n hn
          exact (hcb n hn).2
      · intro p hp
        rcases mem_setKey _ _ _ p hp with hpe2 | hp
        · rw [hpe2]
          apply mem_rebuild_of_not_source _ _ _ hcout
          exact hsafe (t, c) (lookupKey_mem _ _ _ hl)
        · apply mem_rebuild_of_not_source _ _ _ (hout1 p hp)
          exact hsafe p hp
      · exact hnk1

theorem updateEffect_WF (s : EngineState) (t : Int) (effectId : String) (patch : EffectPatch)
    (h : stateWF s) : stateWF (updateEffect s t effectId patch) := by
  cases hg : getEffectChain s t with
  | mk c s1 =>
  have h1 : stateWF s1 := by
    have := getEffectChain_WF s t h
    rwa [hg] at this
  have hl : lookupKey s1.chains t = some c := by
    have := getEffectChain_lookup s t
    rwa [hg] at this
  cases hfi : c.effects.findIdx? (fun e => e.id == effectId) with
  | none =>
      rw [updateEffect_result_none s t effectId patch (by rw [hg]; exact hfi), hg]
      exact h1
  | some i =>
      obtain ⟨hilt, e0, hei, hpe⟩ := findIdx?_spec _ _ _ hfi
      obtain ⟨hcnd, hcb, hclen, hcout⟩ := chain_facts_of_lookup s1 t c h1 hl
      have hilt2 : i < c.toneEffects.length := hclen ▸ hilt
      have hni : ∃ nid, c.toneEffects.get? i = some nid := by
        rw [List.get?_eq_getElem?]
        exact ⟨c.toneEffects[i], (List.getElem?_eq_some).mpr ⟨hilt2, rfl⟩⟩
      obtain ⟨nid, hni⟩ := hni
      rw [updateEffect_result s t effectId patch c s1 i nid e0 hg hfi hei hni]
      have h1c := h1
      obtain ⟨hpos1, hkeys1, hnodes1, hbound1, hlen1, hconns1, hout1, hnk1⟩ := h1c
      apply stateWF_setChain s1 t c _ [] _ _ s1.fresh _ h1 hl
      · exact hcnd
      · intro n hn
        simpa using hn
      · exact List.nodup_nil
      · intro n hn
        cases hn
      · exact Nat.le_refl _
      · show (c.effects.set i _).length = c.toneEffects.length
        rw [List.length_set]
        exact hclen
      · exact hconns1
      · intro p hp
        rcases mem_setKey _ _ _ p hp with hpe2 | hp
        · rw [hpe2]
          exact hcout
        · exact hout1 p hp
      · intro q hq
        have hq1 : q.1 ∈ (setNode s1.nodes nid
            (fun n => updateToneEffectParams n e0.kind (mergeParams e0.params patch))).map
              Prod.fst := List.mem_map_of_mem Prod.fst hq
        rw [setNode_keys] at hq1
        obtain ⟨p, hp, hp1⟩ := List.mem_map.mp hq1
        rw [← hp1]
        exact hnk1 p hp

theorem removeEffect_WF (s : EngineState) (t : Int) (effectId : String) (h : stateWF s) :
    stateWF (removeEffect s t effectId) := by
  cases hg : getEffectChain s t with
  | mk c s1 =>
  have h1 : stateWF s1 := by
    have := getEffectChain_WF s t h
    rwa [hg] at this
  have hl : lookupKey s1.chains t = some c := by
    have := getEffectChain_lookup s t
    rwa [hg] at this
  cases hfi : c.effects.findIdx? (fun e => e.id == effectId) with
  | none =>
      rw [removeEffect_result_none s t effectId (by rw [hg]; exact hfi), hg]
      exact h1
  | some i =>
      obtain ⟨hilt, e0, hei, hpe⟩ := findIdx?_spec _ _ _ hfi
      obtain ⟨hcnd, hcb, hclen, hcout⟩ := chain_facts_of_lookup s1 t c h1 hl
      have hilt2 : i < c.toneEffects.length := hclen ▸ hilt
      have hni : c.toneEffects.get? i = some c.toneEffects[i] := by
        rw [List.get?_eq_getElem?]
        exact (List.getElem?_eq_some).mpr ⟨hilt2, rfl⟩
      have hnidmem : c.toneEffects[i] ∈ c.toneEffects := List.getElem_mem _
      rw [removeEffect_result s t effectId c s1 i c.toneEffects[i] hg hfi hni]
      have h1c := h1
      obtain ⟨hpos1, hkeys1, hnodes1, hbound1, hlen1, hconns1, hout1, hnk1⟩ := h1c
      have hsubc : ∀ n ∈ chainNodes
          { c with effects := c.effects.eraseIdx i, toneEffects := c.toneEffects.eraseIdx i },
          n ∈ chainNodes c := by
        intro n hn
        unfold chainNodes at hn ⊢
        rcases List.mem_cons.mp hn with hn | hn
        · rw [hn]
          exact List.mem_cons_self _ _
        · rcases List.mem_cons.mp hn with hn | hn
          · rw [hn]
            exact List.mem_cons_of_mem _ (List.mem_cons_self _ _)
          · exact List.mem_cons_of_mem _ (List.mem_cons_of_mem _
              ((List.eraseIdx_sublist _ _).subset hn))
      have hndc : (chainNodes
          { c with effects := c.effects.eraseIdx i, toneEffects := c.toneEffects.eraseIdx i }).Nodup := by
        apply List.Nodup.sublist _ hcnd
        unfold chainNodes
        exact (List.eraseIdx_sublist _ _).cons₂ _ |>.cons₂ _
      have hne := output_ne_tone s1 t c h1 hl c.toneEffects[i] hnidmem
      have hsafe := output_not_source s1 t c h1 hl [] (by simp)
        (c.toneEffects.eraseIdx i) (by
          intro n hn
          simpa using (List.eraseIdx_sublist _ _).subset hn)
      apply stateWF_setChain s1 t c _ [] _ _ s1.fresh _ h1 hl
      · exact hndc
      · intro n hn
        simpa using hsubc n hn
      · exact List.nodup_nil
      · intro n hn
        cases hn
      · exact Nat.le_refl _
      · show (c.effects.eraseIdx i).length = (c.toneEffects.eraseIdx i).length
        rw [List.length_eraseIdx, List.length_eraseIdx, if_pos hilt, if_pos hilt2, hclen]
      · apply rebuild_bound
        · intro e2 he2
          exact hconns1 e2 (List.mem_filter.mp he2).1
        · intro n hn
          exact (hcb n (hsubc n hn)).2
      · intro p hp
        rcases mem_setKey _ _ _ p hp with hpe2 | hp
        · rw [hpe2]
          apply mem_rebuild_of_not_source
          · rw [List.mem_filter]
            refine ⟨hcout, ?_⟩
            simp only [decide_eq_true_eq]
            exact ⟨hne.1 (t, c) (lookupKey_mem _ _ _ hl), hne.2⟩
          · exact hsafe (t, c) (lookupKey_mem _ _ _ hl)
        · apply mem_rebuild_of_not_source
          · rw [List.mem_filter]
            refine ⟨hout1 p hp, ?_⟩
            simp only [decide_eq_true_eq]
            exact ⟨hne.1 p hp, hne.2⟩
          · exact hsafe p hp
      · exact hnk1

theorem applyOp_WF (s : EngineState) (o : Op) (h : stateWF s) : stateWF (applyOp s o) := by
  cases o with
  | add t e => exact addEffect_WF s t e h
  | remove t i => exact removeEffect_WF s t i h
  | update t i p => exact updateEffect_WF s t i p h
  | toggle t i => exact toggleEffect_WF s t i h

theorem applyOps_WF (s : EngineState) (ops : List Op) (h : stateWF s) :
    stateWF (applyOps s ops) := by
  induction ops generalizing s with
  | nil => exact h
  | cons o rest ih => exact ih (applyOp s o) (applyOp_WF s o h)

/-! ## The rebuilt chain is wired after each topology mutation -/

theorem addEffect_wired (s : EngineState) (t : Int) (e : TrackEffect) (c : EffectChain)
    (s1 : EngineState) (ns : ToneNodeState) (h : stateWF s)
    (hg : getEffectChain s t = (c, s1)) (hct : createToneEffect e = some ns) :
    lookupKey (addEffect s t e).chains t = some
      { c with effects := c.effects ++ [e], toneEffects := c.toneEffects ++ [s1.fresh] } ∧
    chainWired (addEffect s t e).conns
      { c with effects := c.effects ++ [e], toneEffects := c.toneEffects ++ [s1.fresh] } := by
  have h1 : stateWF s1 := by
    have := getEffectChain_WF s t h
    rwa [hg] at this
  have hl : lookupKey s1.chains t = some c := by
    have := getEffectChain_lookup s t
    rwa [hg] at this
  obtain ⟨hcnd, hcb, hclen, hcout⟩ := chain_facts_of_lookup s1 t c h1 hl
  have hcn' : chainNodes
      { c with effects := c.effects ++ [e], toneEffects := c.toneEffects ++ [s1.fresh] }
      = chainNodes c ++ [s1.fresh] := by
    simp [chainNodes]
  have hnd : (chainNodes
      { c with effects := c.effects ++ [e], toneEffects := c.toneEffects ++ [s1.fresh] }).Nodup := by
    rw [hcn', List.nodup_append]
    refine ⟨hcnd, by simp, ?_⟩
    intro x hx hx2
    have := (hcb x hx).2
    simp at hx2
    omega
  rw [addEffect_result s t e c s1 ns hg hct]
  exact ⟨lookupKey_setKey_self _ _ _, (rebuild_wired _ _ hnd).1⟩

theorem removeEffect_wired (s : EngineState) (t : Int) (effectId : String) (c : EffectChain)
    (s1 : EngineState) (i : Nat) (h : stateWF s)
    (hg : getEffectChain s t = (c, s1))
    (hfi : c.effects.findIdx? (fun x => x.id == effectId) = some i) :
    lookupKey (removeEffect s t effectId).chains t = some
      { c with effects := c.effects.eraseIdx i, toneEffects := c.toneEffects.eraseIdx i } ∧
    chainWired (removeEffect s t effectId).conns
      { c with effects := c.effects.eraseIdx i, toneEffects := c.toneEffects.eraseIdx i } := by
  have h1 : stateWF s1 := by
    have := getEffectChain_WF s t h
    rwa [hg] at this
  have hl : lookupKey s1.chains t = some c := by
    have := getEffectChain_lookup s t
    rwa [hg] at this
  obtain ⟨hilt, e0, hei, hpe⟩ := findIdx?_spec _ _ _ hfi
  obtain ⟨hcnd, hcb, hclen, hcout⟩ := chain_facts_of_lookup s1 t c h1 hl
  have hilt2 : i < c.toneEffects.length := hclen ▸ hilt
  have hni : c.toneEffects.get? i = some c.toneEffects[i] := by
    rw [List.get?_eq_getElem?]
    exact (List.getElem?_eq_some).mpr ⟨hilt2, rfl⟩
  have hnd : (chainNodes
      { c with effects := c.effects.eraseIdx i, toneEffects := c.toneEffects.eraseIdx i }).Nodup := by
    apply List.Nodup.sublist _ hcnd
    unfold chainNodes
    exact (List.eraseIdx_sublist _ _).cons₂ _ |>.cons₂ _
  rw [removeEffect_result s t effectId c s1 i c.toneEffects[i] hg hfi hni]
  exact ⟨lookupKey_setKey_self _ _ _, (rebuild_wired _ _ hnd).1⟩

theorem toggleEffect_wired (s : EngineState) (t : Int) (effectId : String) (c : EffectChain)
    (s1 : EngineState) (i : Nat) (e0 : TrackEffect) (h : stateWF s)
    (hg : getEffectChain s t = (c, s1))
    (hfi : c.effects.findIdx? (fun x => x.id == effectId) = some i)
    (hei : c.effects.get? i = some e0) :
    lookupKey (toggleEffect s t effectId).chains t = some
      { c with effects := c.effects.set i { e0 with enabled := !e0.enabled } } ∧
    chainWired (toggleEffect s t effectId).conns
      { c with effects := c.effects.set i { e0 with enabled := !e0.enabled } } := by
  have h1 : stateWF s1 := by
    have := getEffectChain_WF s t h
    rwa [hg] at this
  have hl : lookupKey s1.chains t = some c := by
    have := getEffectChain_lookup s t
    rwa [hg] at this
  obtain ⟨hcnd, hcb, hclen, hcout⟩ := chain_facts_of_lookup s1 t c h1 hl
  have hnd : (chainNodes
      { c with effects := c.effects.set i { e0 with enabled := !e0.enabled } }).Nodup := hcnd
  rw [toggleEffect_result s t effectId c s1 i e0 hg hfi hei]
  exact ⟨lookupKey_setKey_self _ _ _, (rebuild_wired _ _ hnd).1⟩

/-! ## Index-for-index alignment of the two sequences -/

/-- The processing node stored under handle nid is live and of the species the
entry's kind calls for. -/
def nodeMatches (nodes : List (Nat × ToneNodeState)) (e : TrackEffect) (nid : Nat) : Prop :=
  ∃ ns, lookupNode nodes nid = some ns ∧ kindOf ns = e.kind

/-- The TrackEffect sequence and the processing-node sequence are co-indexed:
same length, and at every index the node was built for that entry's kind. -/
def alignedChain (nodes : List (Nat × ToneNodeState)) (c : EffectChain) : Prop :=
  List.Forall₂ (nodeMatches nodes) c.effects c.toneEffects

/-- Every stored chain is aligned. -/
def alignedState (s : EngineState) : Prop := ∀ p ∈ s.chains, alignedChain s.nodes p.2

theorem alignedState_initial : alignedState initialState := by
  intro p hp
  cases hp

theorem lookupNode_append_of_some (l l2 : List (Nat × ToneNodeState)) (k : Nat)
    (v : ToneNodeState) (h : lookupNode l k = some v) : lookupNode (l ++ l2) k = some v := by
  induction l with
  | nil => cases h
  | cons p rest ih =>
      by_cases hp : p.1 = k
      · rw [lookupNode, if_pos hp] at h
        rw [List.cons_append, lookupNode, if_pos hp]
        exact h
      · rw [lookupNode, if_neg hp] at h
        rw [List.cons_append, lookupNode, if_neg hp]
        exact ih h

theorem lookupNode_none_of (l : List (Nat × ToneNodeState)) (k : Nat)
    (h : ∀ q ∈ l, q.1 ≠ k) : lookupNode l k = none := by
  induction l with
  | nil => rfl
  | cons p rest ih =>
      rw [lookupNode, if_neg (h p (List.mem_cons_self _ _))]
      exact ih fun q hq => h q (List.mem_cons_of_mem _ hq)

theorem lookupNode_append_right (l : List (Nat × ToneNodeState)) (k : Nat)
    (v : ToneNodeState) (h : lookupNode l k = none) :
    lookupNode (l ++ [(k, v)]) k = some v := by
  induction l with
  | nil => simp [lookupNode]
  | cons p rest ih =>
      by_cases hp : p.1 = k
      · rw [lookupNode, if_pos hp] at h
        cases h
      · rw [lookupNode, if_neg hp] at h
        rw [List.cons_append, lookupNode, if_neg hp]
        exact ih h

theorem lookupNode_cons (q : Nat × ToneNodeState) (rest : List (Nat × ToneNodeState))
    (k : Nat) : lookupNode (q :: rest) k = if q.1 = k then some q.2 else lookupNode rest k :=
  rfl

theorem lookupNode_setNode (l : List (Nat × ToneNodeState)) (n : Nat)
    (f : ToneNodeState → ToneNodeState) (k : Nat) :
    lookupNode (setNode l n f) k
      = if k = n then (lookupNode l k).map f else lookupNode l k := by
  induction l with
  | nil => by_cases h : k = n <;> simp [setNode, lookupNode, h]
  | cons p rest ih =>
      obtain ⟨pk, pv⟩ := p
      simp only [setNode, List.map_cons] at ih ⊢
      by_cases hpn : pk = n <;> by_cases hpk : pk = k
      · subst hpn
        subst hpk
        rw [if_pos (show (pk, pv).1 = pk from rfl), lookupNode_cons,
            if_pos (show ((pk, pv).1, f (pk, pv).2).1 = pk from rfl),
            if_pos rfl, lookupNode_cons, if_pos rfl]
        rfl
      · subst hpn
        have hk2 : ¬k = pk := fun hbad => hpk hbad.symm
        rw [if_pos (show (pk, pv).1 = pk from rfl), lookupNode_cons,
            if_neg (show ¬((pk, pv).1, f (pk, pv).2).1 = k from hpk),
            if_neg hk2, lookupNode_cons, if_neg hpk]
        rw [ih, if_neg hk2]
      · subst hpk
        have hk2 : ¬pk = n := hpn
        rw [if_neg (show ¬(pk, pv).1 = n from hpn), lookupNode_cons,
            if_pos (show (pk, pv).1 = pk from rfl),
            if_neg (show ¬pk = n from hpn), lookupNode_cons, if_pos rfl]
      · rw [if_neg (show ¬(pk, pv).1 = n from hpn), lookupNode_cons,
            if_neg (show ¬(pk, pv).1 = k from hpk), lookupNode_cons, if_neg hpk, ih]

theorem kindOf_updateToneEffectParams (n : ToneNodeState) (kind : String)
    (params : EffectParams) : kindOf (updateToneEffectParams n kind params) = kindOf n := by
  unfold updateToneEffectParams
  split
  · cases n <;> rfl
  · cases n <;> rfl
  · cases n <;> rfl
  · cases n <;> rfl
  · rfl

theorem createToneEffect_kind (e : TrackEffect) (ns : ToneNodeState)
    (h : createToneEffect e = some ns) : kindOf ns = e.kind := by
  unfold createToneEffect at h
  split at h
  · injection h with h2
    rename_i heq
    rw [← h2]
    simp [kindOf, heq]
  · injection h with h2
    rename_i heq
    rw [← h2]
    simp [kindOf, heq]
  · injection h with h2
    rename_i heq
    rw [← h2]
    simp [kindOf, heq]
  · injection h with h2
    rename_i heq
    rw [← h2]
    simp [kindOf, heq]
  · cases h

theorem nodeMatches_mono (nodes nodes' : List (Nat × ToneNodeState))
    (himp : ∀ k v, lookupNode nodes k = some v →
      ∃ v', lookupNode nodes' k = some v' ∧ kindOf v' = kindOf v) :
    ∀ e nid, nodeMatches nodes e nid → nodeMatches nodes' e nid := by
  intro e nid ⟨ns, hns, hk⟩
  obtain ⟨v', hv', hkv⟩ := himp nid ns hns
  exact ⟨v', hv', hkv.trans hk⟩

theorem forall₂_eraseIdx {α β : Type} {r : α → β → Prop} :
    ∀ {l1 : List α} {l2 : List β}, List.Forall₂ r l1 l2 →
      ∀ i, List.Forall₂ r (l1.eraseIdx i) (l2.eraseIdx i) := by
  intro l1 l2 h
  induction h with
  | nil => intro i; simp [List.eraseIdx]
  | @cons a b l1 l2 ha hrest ih =>
      intro i
      cases i with
      | zero => simpa [List.eraseIdx] using hrest
      | succ j =>
          show List.Forall₂ r (a :: l1.eraseIdx j) (b :: l2.eraseIdx j)
          exact List.Forall₂.cons ha (ih j)

theorem forall₂_set_left {α β : Type} {r : α → β → Prop} :
    ∀ {l1 : List α} {l2 : List β}, List.Forall₂ r l1 l2 →
      ∀ (i : Nat) (x : α), (∀ y, l2.get? i = some y → r x y) →
        List.Forall₂ r (l1.set i x) l2 := by
  intro l1 l2 h
  induction h with
  | nil => intro i x _; simp
  | @cons a b l1 l2 ha hrest ih =>
      intro i x hx
      cases i with
      | zero =>
          show List.Forall₂ r (x :: l1) (b :: l2)
          exact List.Forall₂.cons (hx b rfl) hrest
      | succ j =>
          show List.Forall₂ r (a :: l1.set j x) (b :: l2)
          exact List.Forall₂.cons ha (ih j x fun y hy => hx y hy)

theorem forall₂_append_one {α β : Type} {r : α → β → Prop} {a : α} {b : β} :
    ∀ {l1 : List α} {l2 : List β}, List.Forall₂ r l1 l2 → r a b →
      List.Forall₂ r (l1 ++ [a]) (l2 ++ [b]) := by
  intro l1 l2 h hab
  induction h with
  | nil => exact List.Forall₂.cons hab List.Forall₂.nil
  | cons ha _ ih => exact List.Forall₂.cons ha ih

theorem forall₂_get? {α β : Type} {r : α → β → Prop} :
    ∀ {l1 : List α} {l2 : List β}, List.Forall₂ r l1 l2 →
      ∀ i a b, l1.get? i = some a → l2.get? i = some b → r a b := by
  intro l1 l2 h
  induction h with
  | nil => intro i a b h1; cases h1
  | @cons x y l1 l2 ha hrest ih =>
      intro i a b h1 h2
      cases i with
      | zero =>
          injection h1 with h1
          injection h2 with h2
          rw [← h1, ← h2]
          exact ha
      | succ j => exact ih j a b h1 h2

theorem getEffectChain_aligned (s : EngineState) (t : Int) (_hWF : stateWF s)
    (ha : alignedState s) : alignedState (getEffectChain s t).2 := by
  unfold getEffectChain
  cases hl : lookupKey s.chains t with
  | some c => exact ha
  | none =>
      show alignedState (createEffectChain s t).2
      rw [createEffectChain_result s t hl]
      intro p hp
      have hmono : ∀ e2 nid, nodeMatches s.nodes e2 nid →
          nodeMatches (s.nodes ++ [(s.fresh, .gain 1), (s.fresh + 1, .gain 1)]) e2 nid :=
        nodeMatches_mono _ _ (fun k v h => ⟨v, lookupNode_append_of_some _ _ _ _ h, rfl⟩)
      rcases List.mem_append.mp hp with hp | hp
      · exact List.Forall₂.imp hmono (ha p hp)
      · simp at hp
        rw [hp]
        exact List.Forall₂.nil

theorem addEffect_aligned (s : EngineState) (t : Int) (e : TrackEffect)
    (hWF : stateWF s) (ha : alignedState s) : alignedState (addEffect s t e) := by
  cases hg : getEffectChain s t with
  | mk c s1 =>
  have h1 : stateWF s1 := by
    have := getEffectChain_WF s t hWF
    rwa [hg] at this
  have ha1 : alignedState s1 := by
    have := getEffectChain_aligned s t hWF ha
    rwa [hg] at this
  have hl : lookupKey s1.chains t = some c := by
    have := getEffectChain_lookup s t
    rwa [hg] at this
  cases hct : createToneEffect e with
  | none =>
      rw [addEffect_result_none s t e hct, hg]
      exact ha1
  | some ns =>
      rw [addEffect_result s t e c s1 ns hg hct]
      intro p hp
      have hmono : ∀ e2 nid, nodeMatches s1.nodes e2 nid →
          nodeMatches (s1.nodes ++ [(s1.fresh, ns)]) e2 nid :=
        nodeMatches_mono _ _ (fun k v h => ⟨v, lookupNode_append_of_some _ _ _ _ h, rfl⟩)
      rcases mem_setKey _ _ _ p hp with hpe | hp
      · rw [hpe]
        show List.Forall₂ _ (c.effects ++ [e]) (c.toneEffects ++ [s1.fresh])
        apply forall₂_append_one
        · exact List.Forall₂.imp hmono (ha1 (t, c) (lookupKey_mem _ _ _ hl))
        · refine ⟨ns, ?_, createToneEffect_kind e ns hct⟩
          apply lookupNode_append_right
          apply lookupNode_none_of
          intro q hq hbad
          obtain ⟨-, -, -, -, -, -, -, hnk1⟩ := h1
          have := hnk1 q hq
          omega
      · exact List.Forall₂.imp hmono (ha1 p hp)

theorem removeEffect_aligned (s : EngineState) (t : Int) (effectId : String)
    (hWF : stateWF s) (ha : alignedState s) : alignedState (removeEffect s t effectId) := by
  cases hg : getEffectChain s t with
  | mk c s1 =>
  have h1 : stateWF s1 := by
    have := getEffectChain_WF s t hWF
    rwa [hg] at this
  have ha1 : alignedState s1 := by
    have := getEffectChain_aligned s t hWF ha
    rwa [hg] at this
  have hl : lookupKey s1.chains t = some c := by
    have := getEffectChain_lookup s t
    rwa [hg] at this
  cases hfi : c.effects.findIdx? (fun x => x.id == effectId) with
  | none =>
      rw [removeEffect_result_none s t effectId (by rw [hg]; exact hfi), hg]
      exact ha1
  | some i =>
      obtain ⟨hilt, e0, hei, hpe⟩ := findIdx?_spec _ _ _ hfi
      obtain ⟨hcnd, hcb, hclen, hcout⟩ := chain_facts_of_lookup s1 t c h1 hl
      have hilt2 : i < c.toneEffects.length := hclen ▸ hilt
      have hni : c.toneEffects.get? i = some c.toneEffects[i] := by
        rw [List.get?_eq_getElem?]
        exact (List.getElem?_eq_some).mpr ⟨hilt2, rfl⟩
      rw [removeEffect_result s t effectId c s1 i c.toneEffects[i] hg hfi hni]
      intro p hp
      rcases mem_setKey _ _ _ p hp with hpe2 | hp
      · rw [hpe2]
        show List.Forall₂ _ (c.effects.eraseIdx i) (c.toneEffects.eraseIdx i)
        exact forall₂_eraseIdx (ha1 (t, c) (lookupKey_mem _ _ _ hl)) i
      · exact ha1 p hp

theorem updateEffect_aligned (s : EngineState) (t : Int) (effectId : String)
    (patch : EffectPatch) (hWF : stateWF s) (ha : alignedState s) :
    alignedState (updateEffect s t effectId patch) := by
  cases hg : getEffectChain s t with
  | mk c s1 =>
  have h1 : stateWF s1 := by
    have := getEffectChain_WF s t hWF
    rwa [hg] at this
  have ha1 : alignedState s1 := by
    have := getEffectChain_aligned s t hWF ha
    rwa [hg] at this
  have hl : lookupKey s1.chains t = some c := by
    have := getEffectChain_lookup s t
    rwa [hg] at this
  cases hfi : c.effects.findIdx? (fun x => x.id == effectId) with
  | none =>
      rw [updateEffect_result_none s t effectId patch (by rw [hg]; exact hfi), hg]
      exact ha1
  | some i =>
      obtain ⟨hilt, e0, hei, hpe⟩ := findIdx?_spec _ _ _ hfi
      obtain ⟨hcnd, hcb, hclen, hcout⟩ := chain_facts_of_lookup s1 t c h1 hl
      have hilt2 : i < c.toneEffects.length := hclen ▸ hilt
      have hni : c.toneEffects.get? i = some c.toneEffects[i] := by
        rw [List.get?_eq_getElem?]
        exact (List.getElem?_eq_some).mpr ⟨hilt2, rfl⟩
      rw [updateEffect_result s t effectId patch c s1 i c.toneEffects[i] e0 hg hfi hei hni]
      have hmono : ∀ e2 nid2, nodeMatches s1.nodes e2 nid2 →
          nodeMatches (setNode s1.nodes c.toneEffects[i]
            (fun n => updateToneEffectParams n e0.kind (mergeParams e0.params patch))) e2 nid2 := by
        apply nodeMatches_mono
        intro k v h
        rw [lookupNode_setNode]
        by_cases hk : k = c.toneEffects[i]
        · rw [if_pos hk, h]
          exact ⟨_, rfl, kindOf_updateToneEffectParams v e0.kind (mergeParams e0.params patch)⟩
        · rw [if_neg hk]
          exact ⟨v, h, rfl⟩
      intro p hp
      rcases mem_setKey _ _ _ p hp with hpe2 | hp
      · rw [hpe2]
        show List.Forall₂ _
          (c.effects.set i { e0 with params := mergeParams e0.params patch }) c.toneEffects
        apply forall₂_set_left
          (List.Forall₂.imp hmono (ha1 (t, c) (lookupKey_mem _ _ _ hl)))
        intro y hy
        have hyn : y = c.toneEffects[i] := by
          rw [hni] at hy
          injection hy with hy
          exact hy.symm
        subst hyn
        have hold : nodeMatches s1.nodes e0 c.toneEffects[i] :=
          forall₂_get? (ha1 (t, c) (lookupKey_mem _ _ _ hl)) i e0 c.toneEffects[i] hei hni
        obtain ⟨ns0, hns0, hk0⟩ := hold
        refine ⟨updateToneEffectParams ns0 e0.kind (mergeParams e0.params patch), ?_, ?_⟩
        · rw [lookupNode_setNode, if_pos rfl, hns0]
          rfl
        · show kindOf (updateToneEffectParams ns0 e0.kind (mergeParams e0.params patch)) = _
          rw [kindOf_updateToneEffectParams, hk0]
      · exact List.Forall₂.imp hmono (ha1 p hp)

theorem toggleEffect_aligned (s : EngineState) (t : Int) (effectId : String)
    (hWF : stateWF s) (ha : alignedState s) : alignedState (toggleEffect s t effectId) := by
  cases hg : getEffectChain s t with
  | mk c s1 =>
  have h1 : stateWF s1 := by
    have := getEffectChain_WF s t hWF
    rwa [hg] at this
  have ha1 : alignedState s1 := by
    have := getEffectChain_aligned s t hWF ha
    rwa [hg] at this
  have hl : lookupKey s1.chains t = some c := by
    have := getEffectChain_lookup s t
    rwa [hg] at this
  cases hfi : c.effects.findIdx? (fun x => x.id == effectId) with
  | none =>
      rw [toggleEffect_result_none s t effectId (by rw [hg]; exact hfi), hg]
      exact ha1
  | some i =>
      obtain ⟨hilt, e0, hei, hpe⟩ := findIdx?_spec _ _ _ hfi
      rw [toggleEffect_result s t effectId c s1 i e0 hg hfi hei]
      intro p hp
      rcases mem_setKey _ _ _ p hp with hpe2 | hp
      · rw [hpe2]
        show List.Forall₂ _ (c.effects.set i { e0 with enabled := !e0.enabled }) c.toneEffects
        apply forall₂_set_left (ha1 (t, c) (lookupKey_mem _ _ _ hl))
        intro y hy
        have hold : nodeMatches s1.nodes e0 y :=
          forall₂_get? (ha1 (t, c) (lookupKey_mem _ _ _ hl)) i e0 y hei hy
        obtain ⟨ns0, hns0, hk0⟩ := hold
        exact ⟨ns0, hns0, hk0⟩
      · exact ha1 p hp

theorem applyOp_aligned (s : EngineState) (o : Op) (hWF : stateWF s)
    (ha : alignedState s) : alignedState (applyOp s o) := by
  cases o with
  | add t e => exact addEffect_aligned s t e hWF ha
  | remove t i => exact removeEffect_aligned s t i hWF ha
  | update t i p => exact updateEffect_aligned s t i p hWF ha
  | toggle t i => exact toggleEffect_aligned s t i hWF ha

theorem applyOps_aligned (s : EngineState) (ops : List Op) (hWF : stateWF s)
    (ha : alignedState s) : alignedState (applyOps s ops) := by
  induction ops generalizing s with
  | nil => exact ha
  | cons o rest ih =>
      exact ih (applyOp s o) (applyOp_WF s o hWF) (applyOp_aligned s o hWF ha)

theorem getEffectChain_of_lookup (s : EngineState) (t : Int) (c : EffectChain)
    (hl : lookupKey s.chains t = some c) : getEffectChain s t = (c, s) := by
  unfold getEffectChain
  rw [hl]

/-! ## Concrete states used by the witnesses -/

/-- A reverb entry as the UI would create it. -/
def wReverb : TrackEffect := ⟨"r1", "reverb", .reverb ⟨1, 2, 1⟩, true⟩

/-- A delay entry as the UI would create it. -/
def wDelay : TrackEffect := ⟨"d1", "delay", .delay ⟨1, 1, 1⟩, true⟩

/-- An entry whose kind no factory branch recognises. -/
def wChorus : TrackEffect := ⟨"c1", "chorus", .reverb ⟨0, 0, 0⟩, true⟩

/-- A partial parameter update touching only the decay field. -/
def wPatch : EffectPatch := .reverb ⟨none, some 3, none⟩

/-- The engine after one reverb was added to track 0. -/
def wState : EngineState := addEffect initialState 0 wReverb

/-- The chain stored for track 0 in wState. -/
def wChain : EffectChain := ⟨0, [wReverb], [3], 1, 2⟩

/-! ## Claims -/

/-- C2: after every topology-affecting mutation on a chain — an addEffect whose
node construction succeeds, and removeEffect/toggleEffect on an id present in
the chain — the connection graph downstream of the chain's input boundary node
equals: input connected to the enabled nodes in sequence order (disabled ones
skipped, each with no outgoing edge), the last enabled node connected to the
output boundary, and input connected directly to output when zero entries are
enabled; chainWired states exactly this shape. -/
theorem C2_rebuild_recomputes_graph (s : EngineState) (t : Int) (e : TrackEffect)
    (effectId : String) (h : stateWF s) :
    (∀ ns, createToneEffect e = some ns →
      ∃ c', lookupKey (addEffect s t e).chains t = some c'
        ∧ chainWired (addEffect s t e).conns c') ∧
    (∀ i, (getEffectChain s t).1.effects.findIdx? (fun x => x.id == effectId) = some i →
      ∃ c', lookupKey (removeEffect s t effectId).chains t = some c'
        ∧ chainWired (removeEffect s t effectId).conns c') ∧
    (∀ i, (getEffectChain s t).1.effects.findIdx? (fun x => x.id == effectId) = some i →
      ∃ c', lookupKey (toggleEffect s t effectId).chains t = some c'
        ∧ chainWired (toggleEffect s t effectId).conns c') := by
  refine ⟨?_, ?_, ?_⟩
  · intro ns hct
    cases hg : getEffectChain s t with
    | mk c s1 =>
        obtain ⟨hlook, hwired⟩ := addEffect_wired s t e c s1 ns h hg hct
        exact ⟨_, hlook, hwired⟩
  · intro i hfi
    cases hg : getEffectChain s t with
    | mk c s1 =>
        rw [hg] at hfi
        obtain ⟨hlook, hwired⟩ := removeEffect_wired s t effectId c s1 i h hg hfi
        exact ⟨_, hlook, hwired⟩
  · intro i hfi
    cases hg : getEffectChain s t with
    | mk c s1 =>
        rw [hg] at hfi
        obtain ⟨hilt, e0, hei, hpe⟩ := findIdx?_spec _ _ _ hfi
        obtain ⟨hlook, hwired⟩ := toggleEffect_wired s t effectId c s1 i e0 h hg hfi hei
        exact ⟨_, hlook, hwired⟩

/-- Witness for C2 at a concrete state: one reverb on track 0, then a delay is
added and the reverb is toggled. -/
theorem C2_witness :
    (∃ c', lookupKey (addEffect wState 0 wDelay).chains 0 = some c'
      ∧ chainWired (addEffect wState 0 wDelay).conns c') ∧
    (∃ c', lookupKey (toggleEffect wState 0 "r1").chains 0 = some c'
      ∧ chainWired (toggleEffect wState 0 "r1").conns c') :=
  ⟨(C2_rebuild_recomputes_graph wState 0 wDelay "r1" (by decide)).1
      (.feedbackDelay ⟨1, 1, 1⟩) (by decide),
   (C2_rebuild_recomputes_graph wState 0 wDelay "r1" (by decide)).2.2 0 (by decide)⟩

/-- C3: for every chain in a state reached from the fresh engine by any
sequence of engine operations, the TrackEffect sequence and the
processing-node sequence have equal length, and index-for-index the stored
node is a live node of exactly the kind of the entry at that index. -/
theorem C3_sequences_aligned (ops : List Op) (t : Int) (c : EffectChain)
    (hc : lookupKey (applyOps initialState ops).chains t = some c) :
    c.effects.length = c.toneEffects.length
      ∧ alignedChain (applyOps initialState ops).nodes c := by
  have ha := applyOps_aligned initialState ops stateWF_initial alignedState_initial
  have h2 := ha (t, c) (lookupKey_mem _ _ _ hc)
  exact ⟨h2.length_eq, h2⟩

/-- Witness for C3 after adding one reverb to track 0. -/
theorem C3_witness :
    wChain.effects.length = wChain.toneEffects.length
      ∧ alignedChain (applyOps initialState [Op.add 0 wReverb]).nodes wChain :=
  C3_sequences_aligned [Op.add 0 wReverb] 0 wChain (by decide)

/-- C4: a chain's output boundary node is connected to the shared destination
at creation, and for every chain stored after any sequence of engine
operations run from a well-formed state the output-to-destination edge is
still present (rebuilds never disconnect the output boundary node). -/
theorem C4_output_stays_connected (s : EngineState) (t : Int) (ops : List Op)
    (h : stateWF s) :
    ((createEffectChain s t).1.output, destination) ∈ (createEffectChain s t).2.conns ∧
    ∀ p ∈ (applyOps s ops).chains, (p.2.output, destination) ∈ (applyOps s ops).conns := by
  constructor
  · unfold createEffectChain
    dsimp only
    simp
  · obtain ⟨-, -, -, -, -, -, hout, -⟩ := applyOps_WF s ops h
    exact hout

/-- Witness for C4: create a chain, then add a reverb, toggle it off, and
remove it; every stored output stays wired to the destination. -/
theorem C4_witness :
    ((createEffectChain initialState 0).1.output, destination)
        ∈ (createEffectChain initialState 0).2.conns ∧
    ∀ p ∈ (applyOps initialState
        [Op.add 0 wReverb, Op.toggle 0 "r1", Op.remove 0 "r1"]).chains,
      (p.2.output, destination) ∈ (applyOps initialState
        [Op.add 0 wReverb, Op.toggle 0 "r1", Op.remove 0 "r1"]).conns :=
  C4_output_stays_connected initialState 0
    [Op.add 0 wReverb, Op.toggle 0 "r1", Op.remove 0 "r1"] (by decide)

/-- C5 counterexample: the claim says removeEffect with an unknown id leaves
the engine state unchanged for every trackIndex, but on a track with no chain
yet the accessor first creates and stores an empty chain, so the state
changes. -/
theorem C5_counterexample : removeEffect initialState 0 "x" ≠ initialState := by decide

/-- C5 (amended): for an effectId that does not occur in the track's chain,
removeEffect, updateEffect and toggleEffect signal no error; when a chain
already exists for the track they leave the engine state exactly unchanged,
and when none exists the only state change is the lazy creation of the empty
chain. -/
theorem C5_unknown_id_is_noop (s : EngineState) (t : Int) (effectId : String)
    (patch : EffectPatch) :
    (∀ c, lookupKey s.chains t = some c → (∀ x ∈ c.effects, x.id ≠ effectId) →
      removeEffect s t effectId = s ∧ updateEffect s t effectId patch = s ∧
      toggleEffect s t effectId = s) ∧
    (lookupKey s.chains t = none →
      removeEffect s t effectId = (createEffectChain s t).2 ∧
      updateEffect s t effectId patch = (createEffectChain s t).2 ∧
      toggleEffect s t effectId = (createEffectChain s t).2) := by
  constructor
  · intro c hl hid
    have hg := getEffectChain_of_lookup s t c hl
    have hfi : c.effects.findIdx? (fun x => x.id == effectId) = none := by
      rw [List.findIdx?_eq_none_iff]
      intro x hx
      simpa using hid x hx
    refine ⟨?_, ?_, ?_⟩
    · rw [removeEffect_result_none s t effectId (by rw [hg]; exact hfi), hg]
    · rw [updateEffect_result_none s t effectId patch (by rw [hg]; exact hfi), hg]
    · rw [toggleEffect_result_none s t effectId (by rw [hg]; exact hfi), hg]
  · intro hnone
    have hg : getEffectChain s t = createEffectChain s t := by
      unfold getEffectChain
      rw [hnone]
    have hfi : (getEffectChain s t).1.effects.findIdx?
        (fun x => x.id == effectId) = none := by
      rw [hg]
      unfold createEffectChain
      rfl
    refine ⟨?_, ?_, ?_⟩
    · rw [removeEffect_result_none s t effectId hfi, hg]
    · rw [updateEffect_result_none s t effectId patch hfi, hg]
    · rw [toggleEffect_result_none s t effectId hfi, hg]

/-- Witness for C5 (amended): with track 0 carrying one reverb entry, the three
operations with an unknown id return the state untouched; with no chain for
track 5, removeEffect only creates the empty chain. -/
theorem C5_witness :
    (removeEffect wState 0 "zzz" = wState ∧ updateEffect wState 0 "zzz" wPatch = wState ∧
      toggleEffect wState 0 "zzz" = wState) ∧
    removeEffect initialState 5 "zzz" = (createEffectChain initialState 5).2 :=
  ⟨(C5_unknown_id_is_noop wState 0 "zzz" wPatch).1 wChain (by decide) (by decide),
   ((C5_unknown_id_is_noop initialState 5 "zzz" wPatch).2 (by decide)).1⟩

/-- C6 counterexample: the claim says a failing node construction aborts
addEffect without mutating state, but on a track with no chain yet the chain
accessor runs first and stores an empty chain, so the state changes even
though construction fails. -/
theorem C6_counterexample :
    createToneEffect wChorus = none ∧ addEffect initialState 0 wChorus ≠ initialState := by
  decide

/-- C6 (amended): if node construction fails during addEffect, the add aborts
with no entry appended to either sequence and no rebuild: the state equals
what the chain accessor alone produced, which is exactly the prior state
whenever the track's chain already existed; no exception propagates (the
operation is a total function). -/
theorem C6_failed_construction_aborts (s : EngineState) (t : Int) (e : TrackEffect)
    (hct : createToneEffect e = none) :
    addEffect s t e = (getEffectChain s t).2 ∧
    (∀ c, lookupKey s.chains t = some c → addEffect s t e = s) ∧
    ∀ c', lookupKey (addEffect s t e).chains t = some c' →
      c'.effects = (getEffectChain s t).1.effects
        ∧ c'.toneEffects = (getEffectChain s t).1.toneEffects := by
  have h1 := addEffect_result_none s t e hct
  refine ⟨h1, ?_, ?_⟩
  · intro c hl
    rw [h1, getEffectChain_of_lookup s t c hl]
  · intro c' hc'
    rw [h1, getEffectChain_lookup s t] at hc'
    injection hc' with hc'
    rw [← hc']
    exact ⟨rfl, rfl⟩

/-- Witness for C6 (amended): adding an entry of unknown kind "chorus" to
track 0 of the one-reverb state leaves the state exactly unchanged. -/
theorem C6_witness : addEffect wState 0 wChorus = wState :=
  (C6_failed_construction_aborts wState 0 wChorus (by decide)).2.1 wChain (by decide)

/-- C7: updateEffect on an existing entry merges the partial params into the
entry's params by shallow field-level overwrite (absent fields keep their
prior value), stores the merged entry at the same index with the same id,
kind and enabled flag, pushes the full merged parameter set onto the live
node, and leaves everything else unchanged: the connection graph, the
allocation counter, the disposal list, every other chain, the node sequence,
and every other live node. -/
theorem C7_update_merges_params (s : EngineState) (t : Int) (effectId : String)
    (patch : EffectPatch) (c : EffectChain) (i : Nat) (e0 : TrackEffect) (nid : Nat)
    (hl : lookupKey s.chains t = some c)
    (hfi : c.effects.findIdx? (fun x => x.id == effectId) = some i)
    (hei : c.effects.get? i = some e0)
    (hni : c.toneEffects.get? i = some nid) :
    (updateEffect s t effectId patch).conns = s.conns ∧
    (updateEffect s t effectId patch).fresh = s.fresh ∧
    (updateEffect s t effectId patch).disposed = s.disposed ∧
    lookupKey (updateEffect s t effectId patch).chains t
      = some { c with effects :=
          c.effects.set i { e0 with params := mergeParams e0.params patch } } ∧
    (∀ t2, t2 ≠ t →
      lookupKey (updateEffect s t effectId patch).chains t2 = lookupKey s.chains t2) ∧
    lookupNode (updateEffect s t effectId patch).nodes nid
      = (lookupNode s.nodes nid).map
          (fun n => updateToneEffectParams n e0.kind (mergeParams e0.params patch)) ∧
    (∀ k, k ≠ nid →
      lookupNode (updateEffect s t effectId patch).nodes k = lookupNode s.nodes k) ∧
    (∀ p q, mergeParams (EffectParams.reverb p) (EffectPatch.reverb q)
      = EffectParams.reverb
          ⟨q.roomSize.getD p.roomSize, q.decay.getD p.decay, q.wet.getD p.wet⟩) ∧
    (∀ p q, mergeParams (EffectParams.delay p) (EffectPatch.delay q)
      = EffectParams.delay
          ⟨q.time.getD p.time, q.feedback.getD p.feedback, q.wet.getD p.wet⟩) ∧
    (∀ p q, mergeParams (EffectParams.distortion p) (EffectPatch.distortion q)
      = EffectParams.distortion
          ⟨q.distortion.getD p.distortion, q.oversample.getD p.oversample,
            q.wet.getD p.wet⟩) ∧
    (∀ p q, mergeParams (EffectParams.filter p) (EffectPatch.filter q)
      = EffectParams.filter
          ⟨q.frequency.getD p.frequency, q.filterType.getD p.filterType,
            q.rolloff.getD p.rolloff, q.q.getD p.q, q.wet.getD p.wet⟩) := by
  have hg := getEffectChain_of_lookup s t c hl
  rw [updateEffect_result s t effectId patch c s i nid e0 hg hfi hei hni]
  refine ⟨rfl, rfl, rfl, ?_, ?_, ?_, ?_, ?_, ?_, ?_, ?_⟩
  · exact lookupKey_setKey_self _ _ _
  · intro t2 ht2
    exact lookupKey_setKey_other _ _ _ _ ht2
  · rw [lookupNode_setNode, if_pos rfl]
  · intro k hk
    rw [lookupNode_setNode, if_neg hk]
  · intro p q
    rfl
  · intro p q
    rfl
  · intro p q
    rfl
  · intro p q
    rfl

/-- Witness for C7: update the decay field of the reverb on track 0. -/
theorem C7_witness : (updateEffect wState 0 "r1" wPatch).conns = wState.conns :=
  (C7_update_merges_params wState 0 "r1" wPatch wChain 0 wReverb 3
    (by decide) (by decide) (by decide) (by decide)).1

theorem addEffect_chains_cases (s : EngineState) (t : Int) (e : TrackEffect) :
    (addEffect s t e).chains = (getEffectChain s t).2.chains ∨
    ∃ c', (addEffect s t e).chains = setKey (getEffectChain s t).2.chains t c' := by
  unfold addEffect
  cases hg : getEffectChain s t with
  | mk c s1 =>
      dsimp only
      split
      · left
        rfl
      · right
        exact ⟨_, rfl⟩

theorem removeEffect_chains_cases (s : EngineState) (t : Int) (effectId : String) :
    (removeEffect s t effectId).chains = (getEffectChain s t).2.chains ∨
    ∃ c', (removeEffect s t effectId).chains
      = setKey (getEffectChain s t).2.chains t c' := by
  unfold removeEffect
  cases hg : getEffectChain s t with
  | mk c s1 =>
      dsimp only
      split
      · left
        rfl
      · right
        split
        · exact ⟨_, rfl⟩
        · exact ⟨_, rfl⟩

theorem updateEffect_chains_cases (s : EngineState) (t : Int) (effectId : String)
    (patch : EffectPatch) :
    (updateEffect s t effectId patch).chains = (getEffectChain s t).2.chains ∨
    ∃ c', (updateEffect s t effectId patch).chains
      = setKey (getEffectChain s t).2.chains t c' := by
  unfold updateEffect
  cases hg : getEffectChain s t with
  | mk c s1 =>
      dsimp only
      split
      · left
        rfl
      · split
        · right
          exact ⟨_, rfl⟩
        · left
          rfl

theorem toggleEffect_chains_cases (s : EngineState) (t : Int) (effectId : String) :
    (toggleEffect s t effectId).chains = (getEffectChain s t).2.chains ∨
    ∃ c', (toggleEffect s t effectId).chains
      = setKey (getEffectChain s t).2.chains t c' := by
  unfold toggleEffect
  cases hg : getEffectChain s t with
  | mk c s1 =>
      dsimp only
      split
      · left
        rfl
      · split
        · left
          rfl
        · right
          exact ⟨_, rfl⟩

theorem chains_cases_isSome (s : EngineState) (t : Int) (l : List (Int × EffectChain))
    (h : l = (getEffectChain s t).2.chains ∨
      ∃ c', l = setKey (getEffectChain s t).2.chains t c') :
    (lookupKey l t).isSome := by
  rcases h with h | ⟨c', h⟩
  · rw [h, getEffectChain_lookup s t]
    rfl
  · rw [h, lookupKey_setKey_self]
    rfl

/-- C10: every public operation taking a trackIndex first ensures a chain for
that index: when none exists, the accessor creates and stores a fresh empty
chain whose input is wired to its output and whose output is wired to the
destination; afterwards a chain is always stored for the index, even when the
supplied effectId is unknown and the operation otherwise changes nothing. -/
theorem C10_ops_ensure_chain (s : EngineState) (t : Int) (e : TrackEffect)
    (effectId : String) (patch : EffectPatch) :
    (lookupKey s.chains t = none →
      (getEffectChain s t).1 = ⟨t, [], [], s.fresh, s.fresh + 1⟩ ∧
      lookupKey (getEffectChain s t).2.chains t
        = some ⟨t, [], [], s.fresh, s.fresh + 1⟩ ∧
      (s.fresh, s.fresh + 1) ∈ (getEffectChain s t).2.conns ∧
      (s.fresh + 1, destination) ∈ (getEffectChain s t).2.conns) ∧
    (lookupKey (addEffect s t e).chains t).isSome ∧
    (lookupKey (removeEffect s t effectId).chains t).isSome ∧
    (lookupKey (updateEffect s t effectId patch).chains t).isSome ∧
    (lookupKey (toggleEffect s t effectId).chains t).isSome ∧
    (lookupKey (getChainInput s t).2.chains t).isSome ∧
    (lookupKey s.chains t = none →
      lookupKey (removeEffect s t effectId).chains t
        = some ⟨t, [], [], s.fresh, s.fresh + 1⟩ ∧
      lookupKey (updateEffect s t effectId patch).chains t
        = some ⟨t, [], [], s.fresh, s.fresh + 1⟩ ∧
      lookupKey (toggleEffect s t effectId).chains t
        = some ⟨t, [], [], s.fresh, s.fresh + 1⟩ ∧
      (s.fresh + 1, destination) ∈ (removeEffect s t effectId).conns) := by
  have hcr : ∀ hnone : lookupKey s.chains t = none,
      getEffectChain s t = createEffectChain s t := by
    intro hnone
    unfold getEffectChain
    rw [hnone]
  refine ⟨?_, ?_, ?_, ?_, ?_, ?_, ?_⟩
  · intro hnone
    rw [hcr hnone]
    refine ⟨rfl, lookupKey_setKey_self _ _ _, ?_, ?_⟩
    · show (s.fresh, s.fresh + 1)
        ∈ s.conns ++ [(s.fresh, s.fresh + 1), (s.fresh + 1, destination)]
      simp
    · show (s.fresh + 1, destination)
        ∈ s.conns ++ [(s.fresh, s.fresh + 1), (s.fresh + 1, destination)]
      simp
  · exact chains_cases_isSome s t _ (addEffect_chains_cases s t e)
  · exact chains_cases_isSome s t _ (removeEffect_chains_cases s t effectId)
  · exact chains_cases_isSome s t _ (updateEffect_chains_cases s t effectId patch)
  · exact chains_cases_isSome s t _ (toggleEffect_chains_cases s t effectId)
  · rw [getChainInput_result, getEffectChain_lookup s t]
    rfl
  · intro hnone
    have hfi : (getEffectChain s t).1.effects.findIdx?
        (fun x => x.id == effectId) = none := by
      rw [hcr hnone]
      unfold createEffectChain
      rfl
    have hlook : lookupKey (getEffectChain s t).2.chains t
        = some ⟨t, [], [], s.fresh, s.fresh + 1⟩ := by
      rw [hcr hnone]
      exact lookupKey_setKey_self _ _ _
    refine ⟨?_, ?_, ?_, ?_⟩
    · rw [removeEffect_result_none s t effectId hfi]
      exact hlook
    · rw [updateEffect_result_none s t effectId patch hfi]
      exact hlook
    · rw [toggleEffect_result_none s t effectId hfi]
      exact hlook
    · rw [removeEffect_result_none s t effectId hfi, hcr hnone]
      show (s.fresh + 1, destination)
        ∈ s.conns ++ [(s.fresh, s.fresh + 1), (s.fresh + 1, destination)]
      simp

/-- Witness for C10 on a track with no chain and an unknown effectId. -/
theorem C10_witness :
    lookupKey (toggleEffect initialState 7 "ghost").chains 7
      = some ⟨7, [], [], 1, 2⟩ :=
  ((C10_ops_ensure_chain initialState 7 wReverb "ghost" wPatch).2.2.2.2.2.2
    (by decide)).2.2.1

/-- C9: both node construction and parameter update map reverb's decay onto
the node's dampening as exactly decay × 3000, and every other field of every
kind is passed through unchanged onto the native parameter of the same
meaning: delay's time onto delayTime, feedback and wet as-is; distortion's
amount, oversample and wet as-is; filter's frequency, type, rolloff and Q
as-is (the filter node exposes no wet control, matching the source, which
never forwards filter wet). -/
theorem C9_param_mapping_exact :
    (∀ (id : String) (en : Bool) (p : ReverbParams),
      createToneEffect ⟨id, "reverb", .reverb p, en⟩
        = some (.freeverb ⟨p.roomSize, p.decay * 3000, p.wet⟩)) ∧
    (∀ (n : FreeverbState) (p : ReverbParams),
      updateToneEffectParams (.freeverb n) "reverb" (.reverb p)
        = .freeverb ⟨p.roomSize, p.decay * 3000, p.wet⟩) ∧
    (∀ (id : String) (en : Bool) (p : DelayParams),
      createToneEffect ⟨id, "delay", .delay p, en⟩
        = some (.feedbackDelay ⟨p.time, p.feedback, p.wet⟩)) ∧
    (∀ (n : FeedbackDelayState) (p : DelayParams),
      updateToneEffectParams (.feedbackDelay n) "delay" (.delay p)
        = .feedbackDelay ⟨p.time, p.feedback, p.wet⟩) ∧
    (∀ (id : String) (en : Bool) (p : DistortionParams),
      createToneEffect ⟨id, "distortion", .distortion p, en⟩
        = some (.distortion ⟨p.distortion, p.oversample, p.wet⟩)) ∧
    (∀ (n : DistortionState) (p : DistortionParams),
      updateToneEffectParams (.distortion n) "distortion" (.distortion p)
        = .distortion ⟨p.distortion, p.oversample, p.wet⟩) ∧
    (∀ (id : String) (en : Bool) (p : FilterParams),
      createToneEffect ⟨id, "filter", .filter p, en⟩
        = some (.filter ⟨p.frequency, p.filterType, p.rolloff, p.q⟩)) ∧
    (∀ (n : FilterState) (p : FilterParams),
      updateToneEffectParams (.filter n) "filter" (.filter p)
        = .filter ⟨p.frequency, p.filterType, p.rolloff, p.q⟩) :=
  ⟨fun _ _ _ => rfl, fun _ _ => rfl, fun _ _ _ => rfl, fun _ _ => rfl,
   fun _ _ _ => rfl, fun _ _ => rfl, fun _ _ _ => rfl, fun _ _ => rfl⟩

/-! ## Toggle twice restores the signal path -/

theorem set_get?_self : ∀ (l : List TrackEffect) (i : Nat) (x : TrackEffect),
    l.get? i = some x → l.set i x = l := by
  intro l
  induction l with
  | nil => intro i x h; cases h
  | cons a rest ih =>
      intro i x h
      cases i with
      | zero =>
          injection h with h
          rw [List.set]
          rw [h]
      | succ j =>
          rw [List.set]
          rw [ih j x h]

theorem findIdx?_set (l : List TrackEffect) (p : TrackEffect → Bool) (i : Nat)
    (y : TrackEffect) (h : l.findIdx? p = some i) (hy : p y = true) :
    (l.set i y).findIdx? p = some i := by
  rw [List.findIdx?_eq_some_iff_findIdx_eq] at h ⊢
  obtain ⟨hlt, hfi⟩ := h
  have hlen : i < (l.set i y).length := by
    rw [List.length_set]
    exact hlt
  refine ⟨hlen, ?_⟩
  rw [List.findIdx_eq hlen]
  constructor
  · rw [List.getElem_set, if_pos rfl]
    exact hy
  · intro j hji
    rw [List.getElem_set, if_neg (by omega)]
    exact ((List.findIdx_eq hlt).mp hfi).2 j hji

theorem pathOk_outgoing_eq : ∀ (xs : List Nat) (conns1 conns2 : List Edge) (src out : Nat),
    pathOk conns1 src xs out → pathOk conns2 src xs out →
    ∀ n ∈ src :: xs, outgoing conns1 n = outgoing conns2 n := by
  intro xs
  induction xs with
  | nil =>
      intro c1 c2 src out h1 h2 n hn
      have e1 : outgoing c1 src = [out] := h1
      have e2 : outgoing c2 src = [out] := h2
      rcases List.mem_cons.mp hn with rfl | hn
      · rw [e1, e2]
      · cases hn
  | cons x xs ih =>
      intro c1 c2 src out h1 h2 n hn
      have h1' : outgoing c1 src = [x] ∧ pathOk c1 x xs out := h1
      have h2' : outgoing c2 src = [x] ∧ pathOk c2 x xs out := h2
      rcases List.mem_cons.mp hn with rfl | hn
      · rw [h1'.1, h2'.1]
      · exact ih c1 c2 x out h1'.2 h2'.2 n hn

/-- C8: toggling an existing entry twice in a row restores the chain exactly:
the stored chain map is unchanged (same entries, same enabled flags), the
node heap, allocation counter and disposal list are untouched (no node is
rebuilt or replaced), and every node's outgoing connections — in particular
the whole signal path — are what they were before, provided the chain was
wired (as it always is in reachable states). -/
theorem C8_toggle_twice_restores (s : EngineState) (t : Int) (effectId : String)
    (c : EffectChain) (i : Nat) (e0 : TrackEffect)
    (h : stateWF s)
    (hl : lookupKey s.chains t = some c)
    (hfi : c.effects.findIdx? (fun x => x.id == effectId) = some i)
    (hei : c.effects.get? i = some e0)
    (hw : chainWired s.conns c) :
    lookupKey (toggleEffect (toggleEffect s t effectId) t effectId).chains t = some c ∧
    (toggleEffect (toggleEffect s t effectId) t effectId).chains = s.chains ∧
    (toggleEffect (toggleEffect s t effectId) t effectId).nodes = s.nodes ∧
    (toggleEffect (toggleEffect s t effectId) t effectId).fresh = s.fresh ∧
    (toggleEffect (toggleEffect s t effectId) t effectId).disposed = s.disposed ∧
    ∀ n, outgoing (toggleEffect (toggleEffect s t effectId) t effectId).conns n
      = outgoing s.conns n := by
  have hg := getEffectChain_of_lookup s t c hl
  obtain ⟨hcnd, hcb, hclen, hcout⟩ := chain_facts_of_lookup s t c h hl
  obtain ⟨hilt, e0', hei', hpe'⟩ := findIdx?_spec _ _ _ hfi
  rw [hei] at hei'
  injection hei' with hx
  subst hx
  obtain ⟨e1, he1⟩ : ∃ x, ({ e0 with enabled := !e0.enabled } : TrackEffect) = x := ⟨_, rfl⟩
  obtain ⟨c1, hc1⟩ : ∃ x, ({ c with effects := c.effects.set i e1 } : EffectChain) = x :=
    ⟨_, rfl⟩
  have hres1 : toggleEffect s t effectId
      = { s with chains := setKey s.chains t c1, conns := rebuildEffectChain s.conns c1 } := by
    rw [← hc1, ← he1]
    exact toggleEffect_result s t effectId c s i e0 hg hfi hei
  have hl1 : lookupKey (toggleEffect s t effectId).chains t = some c1 := by
    rw [hres1]
    exact lookupKey_setKey_self _ _ _
  have hg1 := getEffectChain_of_lookup (toggleEffect s t effectId) t c1 hl1
  have hfi1 : c1.effects.findIdx? (fun x => x.id == effectId) = some i := by
    rw [← hc1]
    show (c.effects.set i e1).findIdx? _ = some i
    apply findIdx?_set _ _ _ _ hfi
    rw [← he1]
    exact hpe'
  have hei1 : c1.effects.get? i = some e1 := by
    rw [← hc1]
    show (c.effects.set i e1).get? i = some e1
    rw [List.get?_eq_getElem?, List.getElem?_set, if_pos rfl, if_pos hilt]
  obtain ⟨e2, he2⟩ : ∃ x, ({ e1 with enabled := !e1.enabled } : TrackEffect) = x := ⟨_, rfl⟩
  obtain ⟨c2, hc2⟩ : ∃ x, ({ c1 with effects := c1.effects.set i e2 } : EffectChain) = x :=
    ⟨_, rfl⟩
  have hres2 : toggleEffect (toggleEffect s t effectId) t effectId
      = { toggleEffect s t effectId with
            chains := setKey (toggleEffect s t effectId).chains t c2
            conns := rebuildEffectChain (toggleEffect s t effectId).conns c2 } := by
    rw [← hc2, ← he2]
    exact toggleEffect_result (toggleEffect s t effectId) t effectId c1
      (toggleEffect s t effectId) i e1 hg1 hfi1 hei1
  have he2e0 : e2 = e0 := by
    rw [← he2, ← he1]
    simp [Bool.not_not]
  have hc2c : c2 = c := by
    rw [← hc2, he2e0, ← hc1]
    simp only [List.set_set]
    rw [set_get?_self c.effects i e0 hei]
  rw [hres2, hres1, hc2c]
  dsimp only
  rw [setKey_setKey, setKey_lookup_self s.chains t c hl]
  refine ⟨hl, rfl, rfl, rfl, rfl, ?_⟩
  have hnd1 : (chainNodes c1).Nodup := by
    rw [← hc1]
    exact hcnd
  have hin1 : c1.input = c.input := by rw [← hc1]
  have hto1 : c1.toneEffects = c.toneEffects := by rw [← hc1]
  have hrwA := rebuild_wired s.conns c1 hnd1
  have hrwB := rebuild_wired (rebuildEffectChain s.conns c1) c hcnd
  intro n
  by_cases hen : n ∈ c.input :: enabledTone c
  · exact pathOk_outgoing_eq (enabledTone c) _ s.conns c.input c.output
      hrwB.1.1 hw.1 n hen
  · by_cases hnt : n ∈ c.toneEffects
    · have hnen : n ∉ enabledTone c := fun hx => hen (List.mem_cons_of_mem _ hx)
      rw [hrwB.1.2 n hnt hnen, hw.2 n hnt hnen]
    · have hn : n ∉ c.input :: c.toneEffects := by
        intro hx
        rcases List.mem_cons.mp hx with rfl | hx
        · exact hen (List.mem_cons_self _ _)
        · exact hnt hx
      have hn1 : n ∉ c1.input :: c1.toneEffects := by
        rw [hin1, hto1]
        exact hn
      rw [hrwB.2 n hn, hrwA.2 n hn1]

/-- Witness for C8: double-toggle of the reverb on track 0 restores the chain
map and the outgoing connections of the chain input. -/
theorem C8_witness :
    (toggleEffect (toggleEffect wState 0 "r1") 0 "r1").chains = wState.chains ∧
    outgoing (toggleEffect (toggleEffect wState 0 "r1") 0 "r1").conns 1
      = outgoing wState.conns 1 :=
  ⟨(C8_toggle_twice_restores wState 0 "r1" wChain 0 wReverb (by decide) (by decide)
      (by decide) (by decide) (by decide)).2.1,
   (C8_toggle_twice_restores wState 0 "r1" wChain 0 wReverb (by decide) (by decide)
      (by decide) (by decide) (by decide)).2.2.2.2.2 1⟩

/-! ## The routing bridge -/

theorem pathOk_extend : ∀ (xs : List Nat) (conns extra : List Edge) (src out : Nat),
    (∀ e ∈ extra, e.1 ∉ src :: xs) → pathOk conns src xs out →
    pathOk (conns ++ extra) src xs out := by
  intro xs
  induction xs with
  | nil =>
      intro conns extra src out hex hp
      have hp' : outgoing conns src = [out] := hp
      show outgoing (conns ++ extra) src = [out]
      rw [outgoing_append, hp', outgoing_eq_nil extra src
        (fun e he hbad => hex e he (by rw [hbad]; exact List.mem_cons_self _ _)),
        List.append_nil]
  | cons x xs ih =>
      intro conns extra src out hex hp
      have hp' : outgoing conns src = [x] ∧ pathOk conns x xs out := hp
      refine ⟨?_, ?_⟩
      · show outgoing (conns ++ extra) src = [x]
        rw [outgoing_append, hp'.1, outgoing_eq_nil extra src
          (fun e he hbad => hex e he (by rw [hbad]; exact List.mem_cons_self _ _)),
          List.append_nil]
      · exact ih conns extra x out
          (fun e he hbad => hex e he (List.mem_cons_of_mem _ hbad)) hp'.2

theorem createEffectChain_fst (s : EngineState) (t : Int) :
    (createEffectChain s t).1 = ⟨t, [], [], s.fresh, s.fresh + 1⟩ := rfl

/-- C1: on each playback trigger the transient pair is wired source to gain,
and the gain node is wired directly to the shared destination when no track
index is supplied, when the effect backend is not initialized, when the
track's chain does not exist yet (it is then lazily created empty), or when
the chain has zero enabled entries; otherwise the gain node is wired to
getChainInput(trackIndex), and the chain's signal path — input through
exactly the enabled nodes in sequence order to output, disabled nodes
dangling — is intact in the post-trigger graph.  The routing-bridge revision
of AudioEngine.playSound is modelled from the spec (section 4.4, Scenario F);
the copy under src/ predates effect routing. -/
theorem C1_playSound_routing (s : EngineState) (ready : Bool) (t? : Option Int)
    (h : stateWF s) :
    outgoing (playSound s ready t?).state.conns (playSound s ready t?).source
      = [(playSound s ready t?).gainNode] ∧
    ((t? = none ∨ ready = false) →
      outgoing (playSound s ready t?).state.conns (playSound s ready t?).gainNode
        = [destination]) ∧
    (∀ t, t? = some t → ready = true → lookupKey s.chains t = none →
      outgoing (playSound s ready t?).state.conns (playSound s ready t?).gainNode
        = [destination]) ∧
    (∀ t c, t? = some t → ready = true → lookupKey s.chains t = some c →
      c.effects.filter (fun e => e.enabled) = [] →
      outgoing (playSound s ready t?).state.conns (playSound s ready t?).gainNode
        = [destination]) ∧
    (∀ t c, t? = some t → ready = true → lookupKey s.chains t = some c →
      c.effects.filter (fun e => e.enabled) ≠ [] →
      outgoing (playSound s ready t?).state.conns (playSound s ready t?).gainNode
          = [(getChainInput s t).1] ∧
      (chainWired s.conns c →
        pathOk (playSound s ready t?).state.conns c.input (enabledTone c) c.output ∧
        ∀ n ∈ c.toneEffects, n ∉ enabledTone c →
          outgoing (playSound s ready t?).state.conns n = [])) := by
  obtain ⟨hpos, hkeys, hnodes, hbound, hlen, hconns, houtc, hnk⟩ := h
  have hsout : ∀ n, s.fresh ≤ n → outgoing s.conns n = [] := by
    intro n hn
    apply outgoing_eq_nil
    intro e he hbad
    have := hconns e he
    omega
  have hmain : ∀ (E : List Edge) (tgt : Nat), (∀ e ∈ E, s.fresh + 2 ≤ e.1) →
      outgoing (((s.conns ++ [(s.fresh, s.fresh + 1)]) ++ E) ++ [(s.fresh + 1, tgt)])
          s.fresh = [s.fresh + 1] ∧
      outgoing (((s.conns ++ [(s.fresh, s.fresh + 1)]) ++ E) ++ [(s.fresh + 1, tgt)])
          (s.fresh + 1) = [tgt] := by
    intro E tgt hE
    have hEsrc : outgoing E s.fresh = [] := by
      apply outgoing_eq_nil
      intro e he hbad
      have := hE e he
      omega
    have hEg : outgoing E (s.fresh + 1) = [] := by
      apply outgoing_eq_nil
      intro e he hbad
      have := hE e he
      omega
    constructor
    · simp only [outgoing_append]
      rw [hsout s.fresh (Nat.le_refl _), hEsrc, outgoing_singleton, if_pos rfl,
          outgoing_singleton, if_neg (by omega)]
      rfl
    · simp only [outgoing_append]
      rw [hsout (s.fresh + 1) (by omega), hEg, outgoing_singleton, if_neg (by omega),
          outgoing_singleton, if_pos rfl]
      rfl
  have hnone_eq : ∀ r, playSound s r none = PlayResult.mk
      { s with fresh := s.fresh + 2
               conns := (s.conns ++ [(s.fresh, s.fresh + 1)]) ++ [(s.fresh + 1, destination)] }
      s.fresh (s.fresh + 1) := by
    intro r
    rfl
  have hfalse_eq : ∀ t, playSound s false (some t) = PlayResult.mk
      { s with fresh := s.fresh + 2
               conns := (s.conns ++ [(s.fresh, s.fresh + 1)]) ++ [(s.fresh + 1, destination)] }
      s.fresh (s.fresh + 1) := by
    intro t
    rfl
  have hmain0 : ∀ tgt : Nat,
      outgoing ((s.conns ++ [(s.fresh, s.fresh + 1)]) ++ [(s.fresh + 1, tgt)])
          s.fresh = [s.fresh + 1] ∧
      outgoing ((s.conns ++ [(s.fresh, s.fresh + 1)]) ++ [(s.fresh + 1, tgt)])
          (s.fresh + 1) = [tgt] := by
    intro tgt
    have := hmain [] tgt (by intro e he; cases he)
    rwa [List.append_nil] at this
  refine ⟨?_, ?_, ?_, ?_, ?_⟩
  · cases t? with
    | none =>
        rw [hnone_eq ready]
        exact (hmain0 destination).1
    | some t =>
        cases ready with
        | false =>
            rw [hfalse_eq t]
            exact (hmain0 destination).1
        | true =>
            show outgoing (playSound s true (some t)).state.conns
              (playSound s true (some t)).source = [(playSound s true (some t)).gainNode]
            unfold playSound
            dsimp only
            cases hl : lookupKey s.chains t with
            | some c =>
                rw [getEffectChain_of_lookup { s with fresh := s.fresh + 2, conns := s.conns ++ [(s.fresh, s.fresh + 1)] } t c (by exact hl)]
                dsimp only
                by_cases hf : c.effects.filter (fun e => e.enabled) = []
                · rw [if_pos hf]
                  exact (hmain0 destination).1
                · rw [if_neg hf]
                  exact (hmain0 c.input).1
            | none =>
                have hcr : getEffectChain { s with fresh := s.fresh + 2, conns := s.conns ++ [(s.fresh, s.fresh + 1)] } t = createEffectChain { s with fresh := s.fresh + 2, conns := s.conns ++ [(s.fresh, s.fresh + 1)] } t := by
                  unfold getEffectChain
                  rw [show lookupKey ({ s with fresh := s.fresh + 2, conns := s.conns ++ [(s.fresh, s.fresh + 1)] } : EngineState).chains t = none from hl]
                rw [hcr, createEffectChain_fst, createEffectChain_result { s with fresh := s.fresh + 2, conns := s.conns ++ [(s.fresh, s.fresh + 1)] } t (by exact hl)]
                dsimp only
                rw [if_pos (show List.filter (fun e => e.enabled) ([] : List TrackEffect) = [] from rfl)]
                exact (hmain [(s.fresh + 2, s.fresh + 2 + 1), (s.fresh + 2 + 1, destination)]
                  destination (by
                    intro e he
                    rcases List.mem_cons.mp he with rfl | he
                    · exact Nat.le_refl _
                    · rw [List.mem_singleton] at he
                      rw [he]
                      omega)).1
  · intro hcase
    rcases hcase with rfl | rfl
    · rw [hnone_eq ready]
      exact (hmain0 destination).2
    · cases t? with
      | none =>
          rw [hnone_eq false]
          exact (hmain0 destination).2
      | some t =>
          rw [hfalse_eq t]
          exact (hmain0 destination).2
  · intro t ht hr hl
    subst ht
    subst hr
    show outgoing (playSound s true (some t)).state.conns
      (playSound s true (some t)).gainNode = [destination]
    unfold playSound
    dsimp only
    have hcr : getEffectChain { s with fresh := s.fresh + 2, conns := s.conns ++ [(s.fresh, s.fresh + 1)] } t = createEffectChain { s with fresh := s.fresh + 2, conns := s.conns ++ [(s.fresh, s.fresh + 1)] } t := by
      unfold getEffectChain
      rw [show lookupKey ({ s with fresh := s.fresh + 2, conns := s.conns ++ [(s.fresh, s.fresh + 1)] } : EngineState).chains t = none from hl]
    rw [hcr, createEffectChain_fst, createEffectChain_result { s with fresh := s.fresh + 2, conns := s.conns ++ [(s.fresh, s.fresh + 1)] } t (by exact hl)]
    dsimp only
    rw [if_pos (show List.filter (fun e => e.enabled) ([] : List TrackEffect) = [] from rfl)]
    exact (hmain [(s.fresh + 2, s.fresh + 2 + 1), (s.fresh + 2 + 1, destination)]
      destination (by
        intro e he
        rcases List.mem_cons.mp he with rfl | he
        · exact Nat.le_refl _
        · rw [List.mem_singleton] at he
          rw [he]
          omega)).2
  · intro t c ht hr hl hf
    subst ht
    subst hr
    show outgoing (playSound s true (some t)).state.conns
      (playSound s true (some t)).gainNode = [destination]
    unfold playSound
    dsimp only
    rw [getEffectChain_of_lookup { s with fresh := s.fresh + 2, conns := s.conns ++ [(s.fresh, s.fresh + 1)] } t c (by exact hl)]
    dsimp only
    rw [if_pos hf]
    exact (hmain0 destination).2
  · intro t c ht hr hl hf
    subst ht
    subst hr
    have hchain : (getChainInput s t).1 = c.input := by
      rw [getChainInput_result, getEffectChain_of_lookup s t c hl]
    rw [hchain]
    have hps : playSound s true (some t) = PlayResult.mk
        { s with fresh := s.fresh + 2
                 conns := (s.conns ++ [(s.fresh, s.fresh + 1)]) ++ [(s.fresh + 1, c.input)] }
        s.fresh (s.fresh + 1) := by
      unfold playSound
      dsimp only
      rw [getEffectChain_of_lookup { s with fresh := s.fresh + 2, conns := s.conns ++ [(s.fresh, s.fresh + 1)] } t c (by exact hl)]
      dsimp only
      rw [if_neg hf]
    rw [hps]
    refine ⟨(hmain0 c.input).2, ?_⟩
    intro hw
    have hcmem := lookupKey_mem s.chains t c hl
    have hcb : ∀ n ∈ chainNodes c, n < s.fresh := by
      intro n hn
      exact (hbound n (mem_chainsNodes_of_mem s.chains t c hcmem n hn)).2
    have hextra : ∀ e ∈ ([(s.fresh, s.fresh + 1), (s.fresh + 1, c.input)] : List Edge),
        ∀ n ∈ chainNodes c, e.1 ≠ n := by
      intro e he n hn
      have := hcb n hn
      rcases List.mem_cons.mp he with rfl | he
      · show s.fresh ≠ n
        omega
      · rw [List.mem_singleton] at he
        rw [he]
        show s.fresh + 1 ≠ n
        omega
    have hassoc : ((s.conns ++ [(s.fresh, s.fresh + 1)]) ++ [(s.fresh + 1, c.input)])
        = s.conns ++ [(s.fresh, s.fresh + 1), (s.fresh + 1, c.input)] := by
      simp
    constructor
    · show pathOk ((s.conns ++ [(s.fresh, s.fresh + 1)]) ++ [(s.fresh + 1, c.input)])
        c.input (enabledTone c) c.output
      rw [hassoc]
      apply pathOk_extend (enabledTone c) s.conns _ c.input c.output
      · intro e he hbad
        rcases List.mem_cons.mp hbad with hb | hb
        · exact hextra e he c.input (List.mem_cons_self _ _) hb
        · exact hextra e he e.1
            (List.mem_cons_of_mem _ (List.mem_cons_of_mem _ (enabledTone_subset c _ hb))) rfl
      · exact hw.1
    · intro n hn hnen
      show outgoing ((s.conns ++ [(s.fresh, s.fresh + 1)]) ++ [(s.fresh + 1, c.input)]) n = []
      have hnil : outgoing [(s.fresh, s.fresh + 1), (s.fresh + 1, c.input)] n = [] := by
        apply outgoing_eq_nil
        intro e he hbad
        exact hextra e he n (List.mem_cons_of_mem _ (List.mem_cons_of_mem _ hn)) hbad
      rw [hassoc, outgoing_append, hw.2 n hn hnen, hnil]
      rfl

/-- Witness for C1: triggering on an uninitialized backend routes direct to
the destination; triggering on track 0 of the one-reverb state routes into
the chain input. -/
theorem C1_witness :
    outgoing (playSound wState false (some 0)).state.conns
        (playSound wState false (some 0)).gainNode = [destination] ∧
    outgoing (playSound wState true (some 0)).state.conns
        (playSound wState true (some 0)).gainNode = [(getChainInput wState 0).1] :=
  ⟨(C1_playSound_routing wState false (some 0) (by decide)).2.1 (Or.inr rfl),
   ((C1_playSound_routing wState true (some 0) (by decide)).2.2.2.2 0 wChain rfl rfl
      (by decide) (by decide)).1⟩

end JamWithRemy
